import Mathlib

/-!
Verification of the storage engine of a small Redis-like server.

The development shallowly embeds the C sources:
  * `zset.h`    : an order-statistics AVL tree implementing sorted sets
  * `minheap.h` : a binary min-heap of expiry bookkeeping entries
  * `handler.h` : the command handlers over the key space
  * `main.c`    : the active eviction sweep

Machine doubles used as scores are modelled by rationals: the C code only
compares scores with `<`, `>` and `==`, and on non-NaN doubles those
comparisons agree with the ordering of the exact rational values.
Member strings are compared with `strcmp`, modelled by the lexicographic
order on `String`.
-/

namespace Redis

/-- Sorted-set keys: a (score, member) pair, as compared by `_zset_avl_cmp`. -/
abbrev K : Type := ℚ × String

/-- Sign of byte-wise lexicographic comparison of character lists; this is
the order computed by `strcmp` on the corresponding C strings. -/
def lexCmp : List Char → List Char → Int
  | [], [] => 0
  | [], _ :: _ => -1
  | _ :: _, [] => 1
  | a :: as, b :: bs =>
    if a.toNat < b.toNat then -1 else if b.toNat < a.toNat then 1 else lexCmp as bs

/-- Result of `strcmp`, collapsed to its sign. -/
def strCmp (a b : String) : Int := lexCmp a.data b.data

/-- Embedding of `_zset_avl_cmp`: score first, member string as tie-break. -/
def kcmp (a b : K) : Int :=
  if a.1 < b.1 then -1 else if b.1 < a.1 then 1 else strCmp a.2 b.2

/-- Strict order on keys induced by `_zset_avl_cmp`. -/
def kLt (a b : K) : Prop := kcmp a b < 0

theorem charToNat_inj {a b : Char} (h : a.toNat = b.toNat) : a = b := by
  apply Char.ext
  apply UInt32.ext
  simpa [Char.toNat, UInt32.toNat] using h

theorem lexCmp_eq_zero_iff : ∀ {as bs : List Char}, lexCmp as bs = 0 ↔ as = bs
  | [], [] => by simp [lexCmp]
  | [], _ :: _ => by simp [lexCmp]
  | _ :: _, [] => by simp [lexCmp]
  | a :: as, b :: bs => by
    unfold lexCmp
    split_ifs with h1 h2
    · constructor
      · intro h; exact absurd h (by norm_num)
      · intro h; injection h with h h3; subst h; exact absurd h1 (lt_irrefl _)
    · constructor
      · intro h; exact absurd h (by norm_num)
      · intro h; injection h with h h3; subst h; exact absurd h2 (lt_irrefl _)
    · have hab : a = b := charToNat_inj (le_antisymm (not_lt.mp h2) (not_lt.mp h1))
      rw [lexCmp_eq_zero_iff]
      subst hab
      constructor
      · intro h; rw [h]
      · intro h; injection h

theorem lexCmp_neg_swap : ∀ {as bs : List Char}, lexCmp as bs < 0 ↔ 0 < lexCmp bs as
  | [], [] => by simp [lexCmp]
  | [], _ :: _ => by simp [lexCmp]
  | _ :: _, [] => by simp [lexCmp]
  | a :: as, b :: bs => by
    unfold lexCmp
    by_cases h1 : a.toNat < b.toNat
    · simp [h1, lt_asymm h1]
    · by_cases h2 : b.toNat < a.toNat
      · simp [h1, h2]
      · simp only [if_neg h1, if_neg h2]
        exact lexCmp_neg_swap

theorem lexCmp_trans_neg : ∀ {as bs cs : List Char},
    lexCmp as bs < 0 → lexCmp bs cs < 0 → lexCmp as cs < 0
  | [], [], _, h1, _ => by simp [lexCmp] at h1
  | [], _ :: _, [], _, h2 => by simp [lexCmp] at h2
  | [], _ :: _, _ :: _, _, _ => by simp [lexCmp]
  | _ :: _, [], _, h1, _ => by simp [lexCmp] at h1
  | _ :: _, _ :: _, [], _, h2 => by simp [lexCmp] at h2
  | a :: as, b :: bs, c :: cs, h1, h2 => by
    unfold lexCmp at h1 h2 ⊢
    by_cases hab : a.toNat < b.toNat <;> by_cases hbc : b.toNat < c.toNat
    · simp [lt_trans hab hbc]
    · by_cases hcb : c.toNat < b.toNat
      · rw [if_neg hbc, if_pos hcb] at h2; exact absurd h2 (by norm_num)
      · have hb : b = c := charToNat_inj (le_antisymm (not_lt.mp hcb) (not_lt.mp hbc))
        subst hb
        simp [hab]
    · by_cases hba : b.toNat < a.toNat
      · rw [if_neg hab, if_pos hba] at h1; exact absurd h1 (by norm_num)
      · have ha : a = b := charToNat_inj (le_antisymm (not_lt.mp hba) (not_lt.mp hab))
        subst ha
        simp [hbc]
    · by_cases hba : b.toNat < a.toNat
      · rw [if_neg hab, if_pos hba] at h1; exact absurd h1 (by norm_num)
      · by_cases hcb : c.toNat < b.toNat
        · rw [if_neg hbc, if_pos hcb] at h2; exact absurd h2 (by norm_num)
        · rw [if_neg hab, if_neg hba] at h1
          rw [if_neg hbc, if_neg hcb] at h2
          have ha : a = b := charToNat_inj (le_antisymm (not_lt.mp hba) (not_lt.mp hab))
          have hb : b = c := charToNat_inj (le_antisymm (not_lt.mp hcb) (not_lt.mp hbc))
          subst ha
          subst hb
          rw [if_neg (lt_irrefl a.toNat), if_neg (lt_irrefl a.toNat)]
          exact lexCmp_trans_neg h1 h2

theorem strCmp_eq_zero_iff {a b : String} : strCmp a b = 0 ↔ a = b := by
  unfold strCmp
  rw [lexCmp_eq_zero_iff]
  constructor
  · intro h; cases a; cases b; cases h; rfl
  · intro h; rw [h]

theorem kcmp_eq_zero_iff {a b : K} : kcmp a b = 0 ↔ a = b := by
  unfold kcmp
  split_ifs with h1 h2
  · constructor
    · intro h; exact absurd h (by norm_num)
    · intro h; subst h; exact absurd h1 (lt_irrefl a.1)
  · constructor
    · intro h; exact absurd h (by norm_num)
    · intro h; subst h; exact absurd h2 (lt_irrefl a.1)
  · rw [strCmp_eq_zero_iff]
    have hfst : a.1 = b.1 := le_antisymm (not_lt.mp h2) (not_lt.mp h1)
    constructor
    · intro h; exact Prod.ext hfst h
    · intro h; rw [h]

theorem kLt_iff {a b : K} : kLt a b ↔ a.1 < b.1 ∨ (a.1 = b.1 ∧ strCmp a.2 b.2 < 0) := by
  unfold kLt kcmp
  split_ifs with h1 h2
  · exact ⟨fun _ => Or.inl h1, fun _ => by norm_num⟩
  · constructor
    · intro h; exact absurd h (by norm_num)
    · rintro (h | ⟨he, _⟩)
      · exact absurd h h1
      · rw [he] at h2; exact absurd h2 (lt_irrefl b.1)
  · have hfst : a.1 = b.1 := le_antisymm (not_lt.mp h2) (not_lt.mp h1)
    constructor
    · intro h; exact Or.inr ⟨hfst, h⟩
    · rintro (h | ⟨_, hlt⟩)
      · exact absurd h h1
      · exact hlt

theorem kLt_irrefl (a : K) : ¬ kLt a a := by
  rw [kLt_iff]
  rintro (h | ⟨_, hlt⟩)
  · exact absurd h (lt_irrefl _)
  · rw [strCmp_eq_zero_iff.2 rfl] at hlt
    exact absurd hlt (lt_irrefl 0)

theorem kLt_trans {a b c : K} (h1 : kLt a b) (h2 : kLt b c) : kLt a c := by
  rw [kLt_iff] at h1 h2 ⊢
  rcases h1 with h1 | ⟨e1, l1⟩ <;> rcases h2 with h2 | ⟨e2, l2⟩
  · exact Or.inl (lt_trans h1 h2)
  · exact Or.inl (e2 ▸ h1)
  · exact Or.inl (e1 ▸ h2)
  · exact Or.inr ⟨e1.trans e2, lexCmp_trans_neg l1 l2⟩

theorem kLt_asymm {a b : K} (h : kLt a b) : ¬ kLt b a := by
  intro h2; exact kLt_irrefl a (kLt_trans h h2)

theorem kcmp_neg_iff {a b : K} : kcmp a b < 0 ↔ kLt a b := Iff.rfl

theorem kcmp_pos_iff {a b : K} : 0 < kcmp a b ↔ kLt b a := by
  have hswap : kLt b a ↔ b.1 < a.1 ∨ (b.1 = a.1 ∧ strCmp b.2 a.2 < 0) := kLt_iff
  unfold kcmp
  rw [hswap]
  split_ifs with h1 h2
  · constructor
    · intro h; exact absurd h (by norm_num)
    · rintro (h | ⟨he, _⟩)
      · exact absurd h (lt_asymm h1)
      · rw [he] at h1; exact absurd h1 (lt_irrefl a.1)
  · exact ⟨fun _ => Or.inl h2, fun _ => by norm_num⟩
  · have hfst : b.1 = a.1 := le_antisymm (not_lt.mp h1) (not_lt.mp h2)
    unfold strCmp
    rw [lexCmp_neg_swap]
    constructor
    · intro h; exact Or.inr ⟨hfst, h⟩
    · rintro (h | ⟨_, hlt⟩)
      · exact absurd h h2
      · exact hlt

theorem kLt_trichotomy (a b : K) : kLt a b ∨ a = b ∨ kLt b a := by
  rcases lt_trichotomy (kcmp a b) 0 with h | h | h
  · exact Or.inl h
  · exact Or.inr (Or.inl (kcmp_eq_zero_iff.mp h))
  · exact Or.inr (Or.inr (kcmp_pos_iff.mp h))

/-! ### The AVL tree of `zset.h`

Each node stores its `height` and `count` fields exactly as the C struct
`ZSetNode` does; `hOf` and `cOf` are the field readers `_zset_avl_height`
and `_zset_avl_count` (0 on the null pointer). -/

/-- Embedding of `ZSetNode` trees (`nil` is the null pointer). -/
inductive ZTree : Type where
  | nil : ZTree
  | node (l : ZTree) (key : K) (r : ZTree) (h : Nat) (c : Nat) : ZTree
deriving DecidableEq

namespace ZTree

/-- Field reader `_zset_avl_height`. -/
def hOf : ZTree → Nat
  | nil => 0
  | node _ _ _ h _ => h

/-- Field reader `_zset_avl_count`. -/
def cOf : ZTree → Nat
  | nil => 0
  | node _ _ _ _ c => c

/-- Embedding of `_zset_avl_update`: recompute the root's height and count
from the children's stored fields. -/
def update : ZTree → ZTree
  | nil => nil
  | node l k r _ _ => node l k r (1 + max (hOf l) (hOf r)) (1 + cOf l + cOf r)

/-- Embedding of `_zset_avl_get_balance` (right height minus left height). -/
def balInt : ZTree → Int
  | nil => 0
  | node l _ r _ _ => (hOf r : Int) - (hOf l : Int)

/-- Root key, with a default for the null tree (the C code only dereferences
a root that its caller has checked to be non-null). -/
def rootKeyD : ZTree → K
  | nil => (0, "")
  | node _ k _ _ _ => k

/-- Embedding of `_zset_avl_rotate_right`. The C code dereferences
`y->left`; on a shape where that would be null the model returns the tree
unchanged (that case is unreachable in the verified call sites). -/
def rotateRight : ZTree → ZTree
  | node (node a xk b xh xc) k r h c =>
      update (node a xk (update (node b k r h c)) xh xc)
  | t => t

/-- Embedding of `_zset_avl_rotate_left`. -/
def rotateLeft : ZTree → ZTree
  | node l k (node b yk cc yh yc) h c =>
      update (node (update (node l k b h c)) yk cc yh yc)
  | t => t

/-- Rebalancing step of `_zset_avl_insert` after the recursive call:
the four rotation cases LL, LR, RR, RL, selected by the balance factor of
the current node and by comparing the inserted key with the child's key. -/
def rebalanceIns (key : K) : ZTree → ZTree
  | nil => nil
  | node l k r h c =>
    if balInt (node l k r h c) < -1 ∧ kcmp key (rootKeyD l) < 0 then
      rotateRight (node l k r h c)
    else if balInt (node l k r h c) < -1 ∧ 0 < kcmp key (rootKeyD l) then
      rotateRight (node (rotateLeft l) k r h c)
    else if 1 < balInt (node l k r h c) ∧ 0 < kcmp key (rootKeyD r) then
      rotateLeft (node l k r h c)
    else if 1 < balInt (node l k r h c) ∧ kcmp key (rootKeyD r) < 0 then
      rotateLeft (node l k (rotateRight r) h c)
    else node l k r h c

/-- Embedding of `_zset_avl_insert` (the new node enters with height 1 and
count 1, exactly as `_zset_node_new` builds it; on comparison `>= 0` the
code descends right). -/
def insertAvl : ZTree → K → ZTree
  | nil, key => node nil key nil 1 1
  | node l k r h c, key =>
    if kcmp key k < 0 then rebalanceIns key (update (node (insertAvl l key) k r h c))
    else rebalanceIns key (update (node l k (insertAvl r key) h c))

/-- Rebalancing step of `_zset_avl_remove`: rotation cases selected by the
balance factors of the current node and of the taller child. -/
def rebalanceDel : ZTree → ZTree
  | nil => nil
  | node l k r h c =>
    if balInt (node l k r h c) < -1 ∧ balInt l ≤ 0 then
      rotateRight (node l k r h c)
    else if balInt (node l k r h c) < -1 ∧ 0 < balInt l then
      rotateRight (node (rotateLeft l) k r h c)
    else if 1 < balInt (node l k r h c) ∧ 0 ≤ balInt r then
      rotateLeft (node l k r h c)
    else if 1 < balInt (node l k r h c) ∧ balInt r < 0 then
      rotateLeft (node l k (rotateRight r) h c)
    else node l k r h c

/-- Embedding of `_zset_avl_min_node` (key of the leftmost node; default on
the null tree, which the caller never passes). -/
def minKeyD : ZTree → K
  | nil => (0, "")
  | node nil k _ _ _ => k
  | node (node la lk lb lh lc) _ _ _ _ => minKeyD (node la lk lb lh lc)

/-- Embedding of `_zset_avl_remove`. The found node with two children is
overwritten with its in-order successor's data and the successor is removed
from the right subtree. -/
def removeAvl : ZTree → K → ZTree
  | nil, _ => nil
  | node l k r h c, key =>
    if kcmp key k < 0 then rebalanceDel (update (node (removeAvl l key) k r h c))
    else if 0 < kcmp key k then rebalanceDel (update (node l k (removeAvl r key) h c))
    else
      match l, r with
      | nil, _ => r
      | node la lk lb lh lc, nil => node la lk lb lh lc
      | node la lk lb lh lc, node ra rk rb rh rc =>
        rebalanceDel (update (node (node la lk lb lh lc)
          (minKeyD (node ra rk rb rh rc))
          (removeAvl (node ra rk rb rh rc) (minKeyD (node ra rk rb rh rc))) h c))

/-- Embedding of `_zset_find_by_member`: pre-order search for a node whose
member string equals `m` (the node itself, then the left subtree, then the
right subtree). -/
def findByMember : ZTree → String → Option K
  | nil, _ => none
  | node l k r _ _, m =>
    if k.2 = m then some k
    else
      match findByMember l m with
      | some res => some res
      | none => findByMember r m

/-- Embedding of the descent loop of `zset_get_by_rank`. -/
def rankGo : ZTree → Nat → Option K
  | nil, _ => none
  | node l k r _ _, rank =>
    let lc := cOf l
    if rank = lc then some k
    else if rank < lc then rankGo l rank
    else rankGo r (rank - lc - 1)

/-- Embedding of `zset_get_by_rank` (bounds check against the root count,
then the rank descent). -/
def getByRank (t : ZTree) (rank : Nat) : Option K :=
  if cOf t ≤ rank then none else rankGo t rank

end ZTree

open ZTree in
/-- Embedding of `zset_add`: find by member, no-op on equal score, remove
then insert on score change, plain insert when absent. Returns the
"newly added" flag together with the new tree. -/
def zsetAdd (t : ZTree) (s : ℚ) (m : String) : Int × ZTree :=
  match findByMember t m with
  | some old =>
    if old.1 = s then (0, t)
    else (0, insertAvl (removeAvl t old) (s, m))
  | none => (1, insertAvl t (s, m))

open ZTree in
/-- Embedding of `zset_remove`: find by member, then remove by its key. -/
def zsetRemove (t : ZTree) (m : String) : Int × ZTree :=
  match findByMember t m with
  | none => (0, t)
  | some old => (1, removeAvl t old)

namespace ZTree

/-- Multiset of (score, member) keys stored in the tree. -/
def keysM : ZTree → Multiset K
  | nil => 0
  | node l k r _ _ => keysM l + (k ::ₘ keysM r)

/-- In-order traversal of the tree. -/
def inorder : ZTree → List K
  | nil => []
  | node l k r _ _ => inorder l ++ k :: inorder r

/-- Well-formedness of the stored bookkeeping: at every node the `height`
and `count` fields are the correct recomputations from the children's
fields, and children heights differ by at most one (AVL balance). -/
def WF : ZTree → Prop
  | nil => True
  | node l _ r h c =>
      WF l ∧ WF r ∧ h = 1 + max (hOf l) (hOf r) ∧ c = 1 + cOf l + cOf r ∧
      hOf l ≤ hOf r + 1 ∧ hOf r ≤ hOf l + 1

/-- Strict binary-search-tree ordering with respect to `_zset_avl_cmp`. -/
def bstP : ZTree → Prop
  | nil => True
  | node l k r _ _ =>
      bstP l ∧ bstP r ∧ (∀ x ∈ keysM l, kLt x k) ∧ (∀ x ∈ keysM r, kLt k x)

/-- Actual height of the tree, independent of the stored fields. -/
def realHeight : ZTree → Nat
  | nil => 0
  | node l _ r _ _ => 1 + max (realHeight l) (realHeight r)

instance : (a : K) → (b : K) → Decidable (kLt a b) := fun a b => by
  unfold kLt; infer_instance

instance instDecWF : (t : ZTree) → Decidable (WF t)
  | nil => .isTrue trivial
  | node l k r h c =>
    have : Decidable (WF l) := instDecWF l
    have : Decidable (WF r) := instDecWF r
    by unfold WF; infer_instance

instance instDecBstP : (t : ZTree) → Decidable (bstP t)
  | nil => .isTrue trivial
  | node l k r h c =>
    have : Decidable (bstP l) := instDecBstP l
    have : Decidable (bstP r) := instDecBstP r
    by unfold bstP; infer_instance

/-! ### Basic facts about the tree embedding -/

@[simp] theorem hOf_nil : hOf nil = 0 := rfl

@[simp] theorem hOf_node {l : ZTree} {k : K} {r : ZTree} {h c : Nat} :
    hOf (node l k r h c) = h := rfl

@[simp] theorem cOf_nil : cOf nil = 0 := rfl

@[simp] theorem cOf_node {l : ZTree} {k : K} {r : ZTree} {h c : Nat} :
    cOf (node l k r h c) = c := rfl

@[simp] theorem keysM_nil : keysM nil = 0 := rfl

@[simp] theorem keysM_node {l : ZTree} {k : K} {r : ZTree} {h c : Nat} :
    keysM (node l k r h c) = keysM l + (k ::ₘ keysM r) := rfl

@[simp] theorem inorder_nil : inorder nil = [] := rfl

@[simp] theorem inorder_node {l : ZTree} {k : K} {r : ZTree} {h c : Nat} :
    inorder (node l k r h c) = inorder l ++ k :: inorder r := rfl

@[simp] theorem rootKeyD_node {l : ZTree} {k : K} {r : ZTree} {h c : Nat} :
    rootKeyD (node l k r h c) = k := rfl

@[simp] theorem balInt_node {l : ZTree} {k : K} {r : ZTree} {h c : Nat} :
    balInt (node l k r h c) = (hOf r : Int) - (hOf l : Int) := rfl

theorem mem_keysM_node {x : K} {l : ZTree} {k : K} {r : ZTree} {h c : Nat} :
    x ∈ keysM (node l k r h c) ↔ x ∈ keysM l ∨ x = k ∨ x ∈ keysM r := by
  simp [keysM]
  tauto

theorem WF_node_iff {l : ZTree} {k : K} {r : ZTree} {h c : Nat} :
    WF (node l k r h c) ↔
      WF l ∧ WF r ∧ h = 1 + max (hOf l) (hOf r) ∧ c = 1 + cOf l + cOf r ∧
      hOf l ≤ hOf r + 1 ∧ hOf r ≤ hOf l + 1 := Iff.rfl

theorem bstP_node_iff {l : ZTree} {k : K} {r : ZTree} {h c : Nat} :
    bstP (node l k r h c) ↔
      bstP l ∧ bstP r ∧ (∀ x ∈ keysM l, kLt x k) ∧ (∀ x ∈ keysM r, kLt k x) := Iff.rfl

/-- Abbreviation for a node whose height and count fields have just been
recomputed by `_zset_avl_update`. -/
def mkN (l : ZTree) (k : K) (r : ZTree) : ZTree :=
  node l k r (1 + max (hOf l) (hOf r)) (1 + cOf l + cOf r)

theorem update_node {l : ZTree} {k : K} {r : ZTree} {h c : Nat} :
    update (node l k r h c) = mkN l k r := rfl

@[simp] theorem hOf_mkN {l : ZTree} {k : K} {r : ZTree} :
    hOf (mkN l k r) = 1 + max (hOf l) (hOf r) := rfl

@[simp] theorem cOf_mkN {l : ZTree} {k : K} {r : ZTree} :
    cOf (mkN l k r) = 1 + cOf l + cOf r := rfl

@[simp] theorem keysM_mkN {l : ZTree} {k : K} {r : ZTree} :
    keysM (mkN l k r) = keysM l + (k ::ₘ keysM r) := rfl

@[simp] theorem rootKeyD_mkN {l : ZTree} {k : K} {r : ZTree} :
    rootKeyD (mkN l k r) = k := rfl

@[simp] theorem balInt_mkN {l : ZTree} {k : K} {r : ZTree} :
    balInt (mkN l k r) = (hOf r : Int) - (hOf l : Int) := rfl

theorem WF_mkN_iff {l : ZTree} {k : K} {r : ZTree} :
    WF (mkN l k r) ↔ WF l ∧ WF r ∧ hOf l ≤ hOf r + 1 ∧ hOf r ≤ hOf l + 1 := by
  unfold mkN
  rw [WF_node_iff]
  tauto

theorem bstP_mkN_iff {l : ZTree} {k : K} {r : ZTree} :
    bstP (mkN l k r) ↔
      bstP l ∧ bstP r ∧ (∀ x ∈ keysM l, kLt x k) ∧ (∀ x ∈ keysM r, kLt k x) := Iff.rfl

theorem rotateRight_eq {a : ZTree} {x : K} {b : ZTree} {xh xc : Nat}
    {k : K} {r : ZTree} {h c : Nat} :
    rotateRight (node (node a x b xh xc) k r h c) = mkN a x (mkN b k r) := rfl

theorem rotateLeft_eq {l : ZTree} {k : K} {b : ZTree} {y : K} {cc : ZTree}
    {yh yc : Nat} {h c : Nat} :
    rotateLeft (node l k (node b y cc yh yc) h c) = mkN (mkN l k b) y cc := rfl

theorem rotateRight_mkN {a : ZTree} {x : K} {b : ZTree} {k : K} {r : ZTree} {h c : Nat} :
    rotateRight (node (mkN a x b) k r h c) = mkN a x (mkN b k r) := rfl

theorem rotateLeft_mkN {l : ZTree} {k : K} {b : ZTree} {y : K} {cc : ZTree} {h c : Nat} :
    rotateLeft (node l k (mkN b y cc) h c) = mkN (mkN l k b) y cc := rfl

theorem wf_nil_iff_hOf {t : ZTree} (hwf : WF t) : t = nil ↔ hOf t = 0 := by
  cases t with
  | nil => simp
  | node l k r h c =>
    rw [WF_node_iff] at hwf
    constructor
    · intro h2; cases h2
    · intro h2
      simp at h2
      omega

theorem exists_node_of_hOf_pos {t : ZTree} (hwf : WF t) (hp : 0 < hOf t) :
    ∃ l k r, t = node l k r (1 + max (hOf l) (hOf r)) (1 + cOf l + cOf r) := by
  cases t with
  | nil => simp at hp
  | node l k r h c =>
    rw [WF_node_iff] at hwf
    exact ⟨l, k, r, by rw [hwf.2.2.1, hwf.2.2.2.1]⟩

theorem rootKeyD_mem_keysM {t : ZTree} (hne : t ≠ nil) : rootKeyD t ∈ keysM t := by
  cases t with
  | nil => exact absurd rfl hne
  | node l k r h c => simp [mem_keysM_node]

theorem cOf_eq_card {t : ZTree} (hwf : WF t) : cOf t = Multiset.card (keysM t) := by
  induction t with
  | nil => simp
  | node l k r h c ihl ihr =>
    rw [WF_node_iff] at hwf
    simp [hwf.2.2.2.1, ihl hwf.1, ihr hwf.2.1]
    omega

/-! ### Specification of the AVL insert -/

theorem kcmp_ne_zero_of_mem {t : ZTree} {key x : K}
    (hfresh : ∀ y ∈ keysM t, y ≠ key) (hx : x ∈ keysM t) : kcmp key x ≠ 0 :=
  fun h0 => hfresh x hx (kcmp_eq_zero_iff.mp h0).symm

theorem rebalanceIns_noop (key : K) (l : ZTree) (k : K) (r : ZTree)
    (hd1 : hOf l ≤ hOf r + 1) (hd2 : hOf r ≤ hOf l + 1) :
    rebalanceIns key (mkN l k r) = mkN l k r := by
  have hb1 : ¬ ((hOf r : Int) - (hOf l : Int) < -1) := by omega
  have hb2 : ¬ (1 < (hOf r : Int) - (hOf l : Int)) := by omega
  show rebalanceIns key (node l k r (1 + max (hOf l) (hOf r)) (1 + cOf l + cOf r)) = _
  simp only [rebalanceIns, balInt_node]
  rw [if_neg (fun hh => hb1 hh.1), if_neg (fun hh => hb1 hh.1),
     if_neg (fun hh => hb2 hh.1), if_neg (fun hh => hb2 hh.1)]
  rfl

set_option maxHeartbeats 4000000 in
theorem insertAvl_spec (key : K) : ∀ (t : ZTree), WF t → bstP t → (∀ x ∈ keysM t, x ≠ key) →
    WF (insertAvl t key) ∧ bstP (insertAvl t key) ∧
    keysM (insertAvl t key) = key ::ₘ keysM t ∧
    (hOf (insertAvl t key) = hOf t ∨ hOf (insertAvl t key) = hOf t + 1) ∧
    (hOf (insertAvl t key) = hOf t + 1 → t ≠ nil →
       rootKeyD (insertAvl t key) = rootKeyD t ∧
       (kLt key (rootKeyD t) → balInt (insertAvl t key) = -1) ∧
       (kLt (rootKeyD t) key → balInt (insertAvl t key) = 1)) := by
  intro t
  induction t with
  | nil =>
    intro _ _ _
    refine ⟨?_, ?_, ?_, ?_, ?_⟩
    · exact ⟨trivial, trivial, rfl, rfl, by simp, by simp⟩
    · exact ⟨trivial, trivial, by simp, by simp⟩
    · simp [insertAvl]
    · right; simp [insertAvl]
    · intro _ hne; exact absurd rfl hne
  | node l k r h c ihl ihr =>
    intro hwf hbst hfresh
    obtain ⟨hwl, hwr, hh, hc, hd1, hd2⟩ := hwf
    obtain ⟨hsl, hsr, hol, hor⟩ := hbst
    have hkne : kcmp key k ≠ 0 :=
      kcmp_ne_zero_of_mem hfresh (mem_keysM_node.mpr (Or.inr (Or.inl rfl)))
    rcases lt_trichotomy (kcmp key k) 0 with hlt | heq | hgt
    · -- the new key descends into the left subtree
      have hkltk : kLt key k := hlt
      obtain ⟨iwl, isl, ikeys, ihh, igrow⟩ := ihl hwl hsl
        (fun x hx => hfresh x (mem_keysM_node.mpr (Or.inl hx)))
      have hstep : insertAvl (node l k r h c) key
          = rebalanceIns key (mkN (insertAvl l key) k r) := by
        simp only [insertAvl, if_pos hlt, update_node]
      obtain ⟨l', hl'⟩ : ∃ l2, insertAvl l key = l2 := ⟨_, rfl⟩
      rw [hl'] at iwl isl ikeys ihh igrow hstep
      rcases ihh with hsame | hgrowth
      · -- the left subtree kept its height: no rotation
        have hres : insertAvl (node l k r h c) key = mkN l' k r := by
          rw [hstep]
          exact rebalanceIns_noop key l' k r (by omega) (by omega)
        rw [hres]
        refine ⟨?_, ?_, ?_, ?_, ?_⟩
        · exact WF_mkN_iff.mpr ⟨iwl, hwr, by omega, by omega⟩
        · refine bstP_mkN_iff.mpr ⟨isl, hsr, ?_, hor⟩
          intro x hx
          rw [ikeys] at hx
          rcases Multiset.mem_cons.mp hx with hx | hx
          · subst hx; exact hkltk
          · exact hol x hx
        · rw [keysM_mkN, ikeys, keysM_node, Multiset.cons_add]
        · left; simp only [hOf_mkN, hOf_node]; omega
        · intro habs _
          exfalso
          simp only [hOf_mkN, hOf_node] at habs
          omega
      · -- the left subtree grew by one
        by_cases hcase : hOf l ≤ hOf r
        · -- balance stays within range: still no rotation
          have hres : insertAvl (node l k r h c) key = mkN l' k r := by
            rw [hstep]
            exact rebalanceIns_noop key l' k r (by omega) (by omega)
          rw [hres]
          refine ⟨?_, ?_, ?_, ?_, ?_⟩
          · exact WF_mkN_iff.mpr ⟨iwl, hwr, by omega, by omega⟩
          · refine bstP_mkN_iff.mpr ⟨isl, hsr, ?_, hor⟩
            intro x hx
            rw [ikeys] at hx
            rcases Multiset.mem_cons.mp hx with hx | hx
            · subst hx; exact hkltk
            · exact hol x hx
          · rw [keysM_mkN, ikeys, keysM_node, Multiset.cons_add]
          · by_cases hreq : hOf r = hOf l
            · right; simp only [hOf_mkN, hOf_node]; omega
            · left; simp only [hOf_mkN, hOf_node]; omega
          · intro hgrew _
            refine ⟨rfl, ?_, ?_⟩
            · intro _
              simp only [hOf_mkN, hOf_node] at hgrew
              simp only [balInt_mkN]
              omega
            · intro hcon; exact absurd hcon (kLt_asymm hkltk)
        · -- balance factor dropped to -2: rotation at this node
          push_neg at hcase
          have hlr : hOf l = hOf r + 1 := by omega
          have hlne : l ≠ nil := by
            intro h0
            rw [wf_nil_iff_hOf hwl] at h0
            omega
          obtain ⟨irk, ibneg, ibpos⟩ := igrow hgrowth hlne
          have hk0mem : rootKeyD l ∈ keysM l := rootKeyD_mem_keysM hlne
          have hk0ne : kcmp key (rootKeyD l) ≠ 0 :=
            kcmp_ne_zero_of_mem hfresh (mem_keysM_node.mpr (Or.inl hk0mem))
          have hl'pos : 0 < hOf l' := by omega
          obtain ⟨a, x, b2, hl'eq⟩ := exists_node_of_hOf_pos iwl hl'pos
          rcases lt_trichotomy (kcmp key (rootKeyD l)) 0 with hklt0 | hkeq0 | hkgt0
          · -- LL shape: single right rotation
            have hbal : balInt l' = -1 := ibneg hklt0
            have hres : insertAvl (node l k r h c) key
                = rotateRight (node l' k r (1 + max (hOf l') (hOf r)) (1 + cOf l' + cOf r)) := by
              rw [hstep]
              show rebalanceIns key
                (node l' k r (1 + max (hOf l') (hOf r)) (1 + cOf l' + cOf r)) = _
              simp only [rebalanceIns]
              rw [if_pos ⟨by simp only [balInt_node]; omega, by rw [irk]; exact hklt0⟩]
            subst hl'eq
            obtain ⟨iwa, iwb, _, _, hba1, hba2⟩ := iwl
            obtain ⟨bsa, bsb, oax, oxb⟩ := isl
            have hkeysl : keysM a + (x ::ₘ keysM b2) = key ::ₘ keysM l := by
              simpa using ikeys
            have hxmem : x = key ∨ x ∈ keysM l := by
              have hx0 : x ∈ keysM a + (x ::ₘ keysM b2) := by simp
              rw [hkeysl] at hx0
              simpa using hx0
            have hxk : kLt x k := by
              rcases hxmem with hx | hx
              · subst hx; exact hkltk
              · exact hol x hx
            have hb2sub : ∀ y ∈ keysM b2, y = key ∨ y ∈ keysM l := by
              intro y hy
              have hy0 : y ∈ keysM a + (x ::ₘ keysM b2) :=
                Multiset.mem_add.mpr (Or.inr (Multiset.mem_cons.mpr (Or.inr hy)))
              rw [hkeysl] at hy0
              simpa using hy0
            have hheights : hOf a = hOf r + 1 ∧ hOf b2 = hOf r := by
              simp only [balInt_node] at hbal
              simp only [hOf_node] at hgrowth
              omega
            rw [rotateRight_eq] at hres
            rw [hres]
            refine ⟨?_, ?_, ?_, ?_, ?_⟩
            · refine WF_mkN_iff.mpr ⟨iwa, WF_mkN_iff.mpr ⟨iwb, hwr, by omega, by omega⟩, ?_, ?_⟩
              · simp only [hOf_mkN]; omega
              · simp only [hOf_mkN]; omega
            · refine bstP_mkN_iff.mpr ⟨bsa, bstP_mkN_iff.mpr ⟨bsb, hsr, ?_, hor⟩, oax, ?_⟩
              · intro y hy
                rcases hb2sub y hy with hy2 | hy2
                · subst hy2; exact hkltk
                · exact hol y hy2
              · intro y hy
                rw [keysM_mkN] at hy
                rcases Multiset.mem_add.mp hy with hy | hy
                · exact oxb y hy
                · rcases Multiset.mem_cons.mp hy with hy | hy
                  · subst hy; exact hxk
                  · exact kLt_trans hxk (hor y hy)
            · simp only [keysM_mkN, keysM_node]
              simp only [← Multiset.singleton_add] at hkeysl ⊢
              calc keysM a + ({x} + (keysM b2 + ({k} + keysM r)))
                  = (keysM a + ({x} + keysM b2)) + ({k} + keysM r) := by abel
                _ = ({key} + keysM l) + ({k} + keysM r) := by rw [hkeysl]
                _ = {key} + (keysM l + ({k} + keysM r)) := by abel
            · left
              simp only [hOf_mkN, hOf_node]
              omega
            · intro habs _
              exfalso
              simp only [hOf_mkN, hOf_node] at habs
              omega
          · exact absurd hkeq0 hk0ne
          · -- LR shape: rotate the left child left, then rotate right
            have hbal : balInt l' = 1 := ibpos (kcmp_pos_iff.mp hkgt0)
            have hres : insertAvl (node l k r h c) key
                = rotateRight (node (rotateLeft l') k r
                    (1 + max (hOf l') (hOf r)) (1 + cOf l' + cOf r)) := by
              rw [hstep]
              show rebalanceIns key
                (node l' k r (1 + max (hOf l') (hOf r)) (1 + cOf l' + cOf r)) = _
              simp only [rebalanceIns]
              rw [if_neg (fun hh => absurd hh.2 (by rw [irk]; omega)),
                 if_pos ⟨by simp only [balInt_node]; omega, by rw [irk]; exact hkgt0⟩]
            subst hl'eq
            obtain ⟨iwa, iwb, _, _, hba1, hba2⟩ := iwl
            obtain ⟨bsa, bsb, oax, oxb⟩ := isl
            have hheights : hOf b2 = hOf r + 1 ∧ hOf a = hOf r := by
              simp only [balInt_node] at hbal
              simp only [hOf_node] at hgrowth
              omega
            have hb2pos : 0 < hOf b2 := by omega
            obtain ⟨p, q, w, hb2eq⟩ := exists_node_of_hOf_pos iwb hb2pos
            subst hb2eq
            obtain ⟨iwp, iww, _, _, hpw1, hpw2⟩ := iwb
            obtain ⟨bsp, bsw, opq, oqw⟩ := bsb
            have hmaxpw : 1 + max (hOf p) (hOf w) = hOf r + 1 := by
              have := hheights.1
              simpa using this
            rw [rotateLeft_eq, rotateRight_mkN] at hres
            rw [hres]
            have hkeysl : keysM a + (x ::ₘ (keysM p + (q ::ₘ keysM w))) = key ::ₘ keysM l := by
              simpa using ikeys
            have hsub : ∀ y, y ∈ keysM a ∨ y = x ∨ y ∈ keysM p ∨ y = q ∨ y ∈ keysM w →
                y = key ∨ y ∈ keysM l := by
              intro y hy
              have hy0 : y ∈ keysM a + (x ::ₘ (keysM p + (q ::ₘ keysM w))) := by
                rw [Multiset.mem_add, Multiset.mem_cons, Multiset.mem_add, Multiset.mem_cons]
                rcases hy with hy | hy | hy | hy | hy
                · exact Or.inl hy
                · exact Or.inr (Or.inl hy)
                · exact Or.inr (Or.inr (Or.inl hy))
                · exact Or.inr (Or.inr (Or.inr (Or.inl hy)))
                · exact Or.inr (Or.inr (Or.inr (Or.inr hy)))
              rw [hkeysl] at hy0
              simpa using hy0
            have hxq : kLt x q := oxb q (mem_keysM_node.mpr (Or.inr (Or.inl rfl)))
            have hqk : kLt q k := by
              rcases hsub q (Or.inr (Or.inr (Or.inr (Or.inl rfl)))) with hq | hq
              · subst hq; exact hkltk
              · exact hol q hq
            refine ⟨?_, ?_, ?_, ?_, ?_⟩
            · refine WF_mkN_iff.mpr ⟨WF_mkN_iff.mpr ⟨iwa, iwp, by omega, by omega⟩,
                WF_mkN_iff.mpr ⟨iww, hwr, by omega, by omega⟩, ?_, ?_⟩
              · simp only [hOf_mkN]; omega
              · simp only [hOf_mkN]; omega
            · refine bstP_mkN_iff.mpr ⟨bstP_mkN_iff.mpr ⟨bsa, bsp, oax, ?_⟩,
                bstP_mkN_iff.mpr ⟨bsw, hsr, ?_, hor⟩, ?_, ?_⟩
              · intro y hy
                exact oxb y (mem_keysM_node.mpr (Or.inl hy))
              · intro y hy
                rcases hsub y (Or.inr (Or.inr (Or.inr (Or.inr hy)))) with hy2 | hy2
                · subst hy2; exact hkltk
                · exact hol y hy2
              · intro y hy
                rw [keysM_mkN] at hy
                rcases Multiset.mem_add.mp hy with hy | hy
                · exact kLt_trans (oax y hy) hxq
                · rcases Multiset.mem_cons.mp hy with hy | hy
                  · subst hy; exact hxq
                  · exact opq y hy
              · intro y hy
                rw [keysM_mkN] at hy
                rcases Multiset.mem_add.mp hy with hy | hy
                · exact oqw y hy
                · rcases Multiset.mem_cons.mp hy with hy | hy
                  · subst hy; exact hqk
                  · exact kLt_trans hqk (hor y hy)
            · simp only [keysM_mkN, keysM_node]
              simp only [← Multiset.singleton_add] at hkeysl ⊢
              calc (keysM a + ({x} + keysM p)) + ({q} + (keysM w + ({k} + keysM r)))
                  = (keysM a + ({x} + (keysM p + ({q} + keysM w)))) + ({k} + keysM r) := by abel
                _ = ({key} + keysM l) + ({k} + keysM r) := by rw [hkeysl]
                _ = {key} + (keysM l + ({k} + keysM r)) := by abel
            · left
              simp only [hOf_mkN, hOf_node]
              omega
            · intro habs _
              exfalso
              simp only [hOf_mkN, hOf_node] at habs
              omega
    · exact absurd heq hkne
    · -- the new key descends into the right subtree
      have hkgtk : kLt k key := kcmp_pos_iff.mp hgt
      obtain ⟨iwr, isr, ikeys, ihh, igrow⟩ := ihr hwr hsr
        (fun x hx => hfresh x (mem_keysM_node.mpr (Or.inr (Or.inr hx))))
      have hstep : insertAvl (node l k r h c) key
          = rebalanceIns key (mkN l k (insertAvl r key)) := by
        simp only [insertAvl, if_neg (show ¬ kcmp key k < 0 by omega), update_node]
      obtain ⟨r', hr'⟩ : ∃ r2, insertAvl r key = r2 := ⟨_, rfl⟩
      rw [hr'] at iwr isr ikeys ihh igrow hstep
      rcases ihh with hsame | hgrowth
      · -- the right subtree kept its height: no rotation
        have hres : insertAvl (node l k r h c) key = mkN l k r' := by
          rw [hstep]
          exact rebalanceIns_noop key l k r' (by omega) (by omega)
        rw [hres]
        refine ⟨?_, ?_, ?_, ?_, ?_⟩
        · exact WF_mkN_iff.mpr ⟨hwl, iwr, by omega, by omega⟩
        · refine bstP_mkN_iff.mpr ⟨hsl, isr, hol, ?_⟩
          intro x hx
          rw [ikeys] at hx
          rcases Multiset.mem_cons.mp hx with hx | hx
          · subst hx; exact hkgtk
          · exact hor x hx
        · simp only [keysM_mkN, ikeys, keysM_node, ← Multiset.singleton_add]
          abel
        · left; simp only [hOf_mkN, hOf_node]; omega
        · intro habs _
          exfalso
          simp only [hOf_mkN, hOf_node] at habs
          omega
      · -- the right subtree grew by one
        by_cases hcase : hOf r ≤ hOf l
        · -- balance stays within range: still no rotation
          have hres : insertAvl (node l k r h c) key = mkN l k r' := by
            rw [hstep]
            exact rebalanceIns_noop key l k r' (by omega) (by omega)
          rw [hres]
          refine ⟨?_, ?_, ?_, ?_, ?_⟩
          · exact WF_mkN_iff.mpr ⟨hwl, iwr, by omega, by omega⟩
          · refine bstP_mkN_iff.mpr ⟨hsl, isr, hol, ?_⟩
            intro x hx
            rw [ikeys] at hx
            rcases Multiset.mem_cons.mp hx with hx | hx
            · subst hx; exact hkgtk
            · exact hor x hx
          · simp only [keysM_mkN, ikeys, keysM_node, ← Multiset.singleton_add]
            abel
          · by_cases hreq : hOf l = hOf r
            · right; simp only [hOf_mkN, hOf_node]; omega
            · left; simp only [hOf_mkN, hOf_node]; omega
          · intro hgrew _
            refine ⟨rfl, ?_, ?_⟩
            · intro hcon; exact absurd hcon (kLt_asymm hkgtk)
            · intro _
              simp only [hOf_mkN, hOf_node] at hgrew
              simp only [balInt_mkN]
              omega
        · -- balance factor rose to +2: rotation at this node
          push_neg at hcase
          have hrl : hOf r = hOf l + 1 := by omega
          have hrne : r ≠ nil := by
            intro h0
            rw [wf_nil_iff_hOf hwr] at h0
            omega
          obtain ⟨irk, ibneg, ibpos⟩ := igrow hgrowth hrne
          have hk0mem : rootKeyD r ∈ keysM r := rootKeyD_mem_keysM hrne
          have hk0ne : kcmp key (rootKeyD r) ≠ 0 :=
            kcmp_ne_zero_of_mem hfresh (mem_keysM_node.mpr (Or.inr (Or.inr hk0mem)))
          have hr'pos : 0 < hOf r' := by omega
          obtain ⟨m, y, n, hr'eq⟩ := exists_node_of_hOf_pos iwr hr'pos
          rcases lt_trichotomy (kcmp key (rootKeyD r)) 0 with hklt0 | hkeq0 | hkgt0
          · -- RL shape: rotate the right child right, then rotate left
            have hbal : balInt r' = -1 := ibneg hklt0
            have hres : insertAvl (node l k r h c) key
                = rotateLeft (node l k (rotateRight r')
                    (1 + max (hOf l) (hOf r')) (1 + cOf l + cOf r')) := by
              rw [hstep]
              show rebalanceIns key
                (node l k r' (1 + max (hOf l) (hOf r')) (1 + cOf l + cOf r')) = _
              simp only [rebalanceIns]
              rw [if_neg (fun hh => absurd hh.1 (by simp only [balInt_node]; omega)),
                 if_neg (fun hh => absurd hh.1 (by simp only [balInt_node]; omega)),
                 if_neg (fun hh => absurd hh.2 (by rw [irk]; omega)),
                 if_pos ⟨by simp only [balInt_node]; omega, by rw [irk]; exact hklt0⟩]
            subst hr'eq
            obtain ⟨iwm, iwn, _, _, hmn1, hmn2⟩ := iwr
            obtain ⟨bsm, bsn, omy, oyn⟩ := isr
            have hheights : hOf m = hOf l + 1 ∧ hOf n = hOf l := by
              simp only [balInt_node] at hbal
              simp only [hOf_node] at hgrowth
              omega
            have hmpos : 0 < hOf m := by omega
            obtain ⟨p, q, w, hmeq⟩ := exists_node_of_hOf_pos iwm hmpos
            subst hmeq
            obtain ⟨iwp, iww, _, _, hpw1, hpw2⟩ := iwm
            obtain ⟨bsp, bsw, opq, oqw⟩ := bsm
            have hmaxpw : 1 + max (hOf p) (hOf w) = hOf l + 1 := by
              have := hheights.1
              simpa using this
            rw [rotateRight_eq, rotateLeft_mkN] at hres
            rw [hres]
            have hkeysr : (keysM p + (q ::ₘ keysM w)) + (y ::ₘ keysM n) = key ::ₘ keysM r := by
              simpa using ikeys
            have hsub : ∀ z, z ∈ keysM p ∨ z = q ∨ z ∈ keysM w ∨ z = y ∨ z ∈ keysM n →
                z = key ∨ z ∈ keysM r := by
              intro z hz
              have hz0 : z ∈ (keysM p + (q ::ₘ keysM w)) + (y ::ₘ keysM n) := by
                rw [Multiset.mem_add, Multiset.mem_add, Multiset.mem_cons, Multiset.mem_cons]
                rcases hz with hz | hz | hz | hz | hz
                · exact Or.inl (Or.inl hz)
                · exact Or.inl (Or.inr (Or.inl hz))
                · exact Or.inl (Or.inr (Or.inr hz))
                · exact Or.inr (Or.inl hz)
                · exact Or.inr (Or.inr hz)
              rw [hkeysr] at hz0
              simpa using hz0
            have hqy : kLt q y := omy q (mem_keysM_node.mpr (Or.inr (Or.inl rfl)))
            have hkq : kLt k q := by
              rcases hsub q (Or.inr (Or.inl rfl)) with hq | hq
              · subst hq; exact hkgtk
              · exact hor q hq
            refine ⟨?_, ?_, ?_, ?_, ?_⟩
            · refine WF_mkN_iff.mpr ⟨WF_mkN_iff.mpr ⟨hwl, iwp, by omega, by omega⟩,
                WF_mkN_iff.mpr ⟨iww, iwn, by omega, by omega⟩, ?_, ?_⟩
              · simp only [hOf_mkN]; omega
              · simp only [hOf_mkN]; omega
            · refine bstP_mkN_iff.mpr ⟨bstP_mkN_iff.mpr ⟨hsl, bsp, hol, ?_⟩,
                bstP_mkN_iff.mpr ⟨bsw, bsn, ?_, oyn⟩, ?_, ?_⟩
              · intro z hz
                rcases hsub z (Or.inl hz) with hz2 | hz2
                · subst hz2; exact hkgtk
                · exact hor z hz2
              · intro z hz
                exact omy z (mem_keysM_node.mpr (Or.inr (Or.inr hz)))
              · intro z hz
                rw [keysM_mkN] at hz
                rcases Multiset.mem_add.mp hz with hz | hz
                · exact kLt_trans (hol z hz) hkq
                · rcases Multiset.mem_cons.mp hz with hz | hz
                  · subst hz; exact hkq
                  · exact opq z hz
              · intro z hz
                rw [keysM_mkN] at hz
                rcases Multiset.mem_add.mp hz with hz | hz
                · exact oqw z hz
                · rcases Multiset.mem_cons.mp hz with hz | hz
                  · subst hz; exact hqy
                  · exact kLt_trans hqy (oyn z hz)
            · simp only [keysM_mkN, keysM_node]
              simp only [← Multiset.singleton_add] at hkeysr ⊢
              calc (keysM l + ({k} + keysM p)) + ({q} + (keysM w + ({y} + keysM n)))
                  = keysM l + ({k} + ((keysM p + ({q} + keysM w)) + ({y} + keysM n))) := by abel
                _ = keysM l + ({k} + ({key} + keysM r)) := by rw [hkeysr]
                _ = {key} + (keysM l + ({k} + keysM r)) := by abel
            · left
              simp only [hOf_mkN, hOf_node]
              omega
            · intro habs _
              exfalso
              simp only [hOf_mkN, hOf_node] at habs
              omega
          · exact absurd hkeq0 hk0ne
          · -- RR shape: single left rotation
            have hbal : balInt r' = 1 := ibpos (kcmp_pos_iff.mp hkgt0)
            have hres : insertAvl (node l k r h c) key
                = rotateLeft (node l k r' (1 + max (hOf l) (hOf r')) (1 + cOf l + cOf r')) := by
              rw [hstep]
              show rebalanceIns key
                (node l k r' (1 + max (hOf l) (hOf r')) (1 + cOf l + cOf r')) = _
              simp only [rebalanceIns]
              rw [if_neg (fun hh => absurd hh.1 (by simp only [balInt_node]; omega)),
                 if_neg (fun hh => absurd hh.1 (by simp only [balInt_node]; omega)),
                 if_pos ⟨by simp only [balInt_node]; omega, by rw [irk]; exact hkgt0⟩]
            subst hr'eq
            obtain ⟨iwm, iwn, _, _, hmn1, hmn2⟩ := iwr
            obtain ⟨bsm, bsn, omy, oyn⟩ := isr
            have hkeysr : keysM m + (y ::ₘ keysM n) = key ::ₘ keysM r := by
              simpa using ikeys
            have hsub : ∀ z, z ∈ keysM m ∨ z = y ∨ z ∈ keysM n →
                z = key ∨ z ∈ keysM r := by
              intro z hz
              have hz0 : z ∈ keysM m + (y ::ₘ keysM n) := by
                rw [Multiset.mem_add, Multiset.mem_cons]
                exact hz
              rw [hkeysr] at hz0
              simpa using hz0
            have hky : kLt k y := by
              rcases hsub y (Or.inr (Or.inl rfl)) with hy | hy
              · subst hy; exact hkgtk
              · exact hor y hy
            have hheights : hOf n = hOf l + 1 ∧ hOf m = hOf l := by
              simp only [balInt_node] at hbal
              simp only [hOf_node] at hgrowth
              omega
            rw [rotateLeft_eq] at hres
            rw [hres]
            refine ⟨?_, ?_, ?_, ?_, ?_⟩
            · refine WF_mkN_iff.mpr ⟨WF_mkN_iff.mpr ⟨hwl, iwm, by omega, by omega⟩, iwn, ?_, ?_⟩
              · simp only [hOf_mkN]; omega
              · simp only [hOf_mkN]; omega
            · refine bstP_mkN_iff.mpr ⟨bstP_mkN_iff.mpr ⟨hsl, bsm, hol, ?_⟩, bsn, ?_, oyn⟩
              · intro z hz
                rcases hsub z (Or.inl hz) with hz2 | hz2
                · subst hz2; exact hkgtk
                · exact hor z hz2
              · intro z hz
                rw [keysM_mkN] at hz
                rcases Multiset.mem_add.mp hz with hz | hz
                · exact kLt_trans (hol z hz) hky
                · rcases Multiset.mem_cons.mp hz with hz | hz
                  · subst hz; exact hky
                  · exact omy z hz
            · simp only [keysM_mkN, keysM_node]
              simp only [← Multiset.singleton_add] at hkeysr ⊢
              calc (keysM l + ({k} + keysM m)) + ({y} + keysM n)
                  = keysM l + ({k} + (keysM m + ({y} + keysM n))) := by abel
                _ = keysM l + ({k} + ({key} + keysM r)) := by rw [hkeysr]
                _ = {key} + (keysM l + ({k} + keysM r)) := by abel
            · left
              simp only [hOf_mkN, hOf_node]
              omega
            · intro habs _
              exfalso
              simp only [hOf_mkN, hOf_node] at habs
              omega

/-! ### Facts for the AVL remove -/

theorem bstP_nodup : ∀ {t : ZTree}, bstP t → (keysM t).Nodup := by
  intro t
  induction t with
  | nil => intro _; simp
  | node l k r h c ihl ihr =>
    intro hbst
    obtain ⟨hsl, hsr, hol, hor⟩ := hbst
    rw [keysM_node, Multiset.nodup_add]
    refine ⟨ihl hsl, ?_, ?_⟩
    · rw [Multiset.nodup_cons]
      refine ⟨fun hk => ?_, ihr hsr⟩
      exact kLt_irrefl k (hor k hk)
    · rw [Multiset.disjoint_left]
      intro x hxl hxc
      rcases Multiset.mem_cons.mp hxc with hx | hx
      · subst hx; exact kLt_irrefl x (hol x hxl)
      · exact kLt_irrefl x (kLt_trans (hol x hxl) (hor x hx))

theorem minKeyD_spec : ∀ (t : ZTree), t ≠ nil → bstP t →
    minKeyD t ∈ keysM t ∧ (∀ x ∈ keysM t, x = minKeyD t ∨ kLt (minKeyD t) x) := by
  intro t
  induction t with
  | nil => intro hne _; exact absurd rfl hne
  | node l k r h c ihl ihr =>
    intro _ hbst
    obtain ⟨hsl, hsr, hol, hor⟩ := hbst
    cases l with
    | nil =>
      have he : minKeyD (node nil k r h c) = k := rfl
      rw [he]
      constructor
      · exact mem_keysM_node.mpr (Or.inr (Or.inl rfl))
      · intro x hx
        rcases mem_keysM_node.mp hx with hx | hx | hx
        · simp at hx
        · exact Or.inl hx
        · exact Or.inr (hor x hx)
    | node la lk lb lh lc =>
      have he : minKeyD (node (node la lk lb lh lc) k r h c)
          = minKeyD (node la lk lb lh lc) := rfl
      rw [he]
      obtain ⟨hmem, hmin⟩ := ihl (by intro h0; cases h0) hsl
      constructor
      · exact mem_keysM_node.mpr (Or.inl hmem)
      · intro x hx
        rcases mem_keysM_node.mp hx with hx | hx | hx
        · exact hmin x hx
        · subst hx; exact Or.inr (hol _ hmem)
        · exact Or.inr (kLt_trans (hol _ hmem) (hor x hx))

theorem erase_add_of_not_mem_right {A B : Multiset K} {key : K} (hB : key ∉ B) :
    (A + B).erase key = A.erase key + B := by
  by_cases hA : key ∈ A
  · exact Multiset.erase_add_left_pos B hA
  · rw [Multiset.erase_of_not_mem hA, Multiset.erase_of_not_mem]
    rw [Multiset.mem_add]
    tauto

theorem erase_add_of_not_mem_left {A B : Multiset K} {key : K} (hA : key ∉ A) :
    (A + B).erase key = A + B.erase key := by
  by_cases hB : key ∈ B
  · exact Multiset.erase_add_right_pos A hB
  · rw [Multiset.erase_of_not_mem hB, Multiset.erase_of_not_mem]
    rw [Multiset.mem_add]
    tauto

theorem rebalanceDel_spec (l : ZTree) (k : K) (r : ZTree)
    (hwl : WF l) (hwr : WF r) (hsl : bstP l) (hsr : bstP r)
    (hol : ∀ x ∈ keysM l, kLt x k) (hor : ∀ x ∈ keysM r, kLt k x)
    (hd1 : hOf l ≤ hOf r + 2) (hd2 : hOf r ≤ hOf l + 2) :
    WF (rebalanceDel (mkN l k r)) ∧ bstP (rebalanceDel (mkN l k r)) ∧
    keysM (rebalanceDel (mkN l k r)) = keysM l + (k ::ₘ keysM r) ∧
    max (hOf l) (hOf r) ≤ hOf (rebalanceDel (mkN l k r)) ∧
    hOf (rebalanceDel (mkN l k r)) ≤ 1 + max (hOf l) (hOf r) ∧
    (hOf l ≤ hOf r + 1 → hOf r ≤ hOf l + 1 →
      hOf (rebalanceDel (mkN l k r)) = 1 + max (hOf l) (hOf r)) := by
  by_cases hbal : hOf l ≤ hOf r + 1 ∧ hOf r ≤ hOf l + 1
  · -- balanced enough: no rotation
    have hres : rebalanceDel (mkN l k r) = mkN l k r := by
      show rebalanceDel (node l k r (1 + max (hOf l) (hOf r)) (1 + cOf l + cOf r)) = _
      simp only [rebalanceDel]
      rw [if_neg (fun hh => absurd hh.1 (by simp only [balInt_node]; omega)),
         if_neg (fun hh => absurd hh.1 (by simp only [balInt_node]; omega)),
         if_neg (fun hh => absurd hh.1 (by simp only [balInt_node]; omega)),
         if_neg (fun hh => absurd hh.1 (by simp only [balInt_node]; omega))]
      rfl
    rw [hres]
    refine ⟨WF_mkN_iff.mpr ⟨hwl, hwr, by omega, by omega⟩,
      bstP_mkN_iff.mpr ⟨hsl, hsr, hol, hor⟩, rfl, ?_, ?_, ?_⟩
    · simp only [hOf_mkN]; omega
    · simp only [hOf_mkN]; omega
    · intro _ _; rfl
  · rcases (by omega : hOf l = hOf r + 2 ∨ hOf r = hOf l + 2) with hcase | hcase
    · -- left-heavy by two
      have hlpos : 0 < hOf l := by omega
      obtain ⟨a, x, b, hleq⟩ := exists_node_of_hOf_pos hwl hlpos
      subst hleq
      obtain ⟨hwa, hwb, _, _, hab1, hab2⟩ := hwl
      obtain ⟨bsa, bsb, oax, oxb⟩ := hsl
      have hmaxab : 1 + max (hOf a) (hOf b) = hOf r + 2 := by
        simpa using hcase
      have hax : kLt x k := hol x (mem_keysM_node.mpr (Or.inr (Or.inl rfl)))
      by_cases hbl : (hOf b : Int) - (hOf a : Int) ≤ 0
      · -- LL shape: single right rotation
        have hres : rebalanceDel (mkN (node a x b (1 + max (hOf a) (hOf b)) (1 + cOf a + cOf b)) k r)
            = mkN a x (mkN b k r) := by
          show rebalanceDel (node (node a x b (1 + max (hOf a) (hOf b)) (1 + cOf a + cOf b)) k r _ _) = _
          simp only [rebalanceDel]
          rw [if_pos ⟨by simp only [balInt_node, hOf_node]; omega,
              by simp only [balInt_node]; omega⟩, rotateRight_eq]
        rw [hres]
        refine ⟨?_, ?_, ?_, ?_, ?_, ?_⟩
        · refine WF_mkN_iff.mpr ⟨hwa, WF_mkN_iff.mpr ⟨hwb, hwr, by omega, by omega⟩, ?_, ?_⟩
          · simp only [hOf_mkN]; omega
          · simp only [hOf_mkN]; omega
        · refine bstP_mkN_iff.mpr ⟨bsa, bstP_mkN_iff.mpr ⟨bsb, hsr, ?_, hor⟩, oax, ?_⟩
          · intro y hy
            exact hol y (mem_keysM_node.mpr (Or.inr (Or.inr hy)))
          · intro y hy
            rw [keysM_mkN] at hy
            rcases Multiset.mem_add.mp hy with hy | hy
            · exact oxb y hy
            · rcases Multiset.mem_cons.mp hy with hy | hy
              · subst hy; exact hax
              · exact kLt_trans hax (hor y hy)
        · simp only [keysM_mkN, keysM_node]
          simp only [← Multiset.singleton_add]
          abel
        · simp only [hOf_mkN, hOf_node]; omega
        · simp only [hOf_mkN, hOf_node]; omega
        · intro h1 _; exfalso; simp only [hOf_node] at h1; omega
      · -- LR shape
        push_neg at hbl
        have hbpos : 0 < hOf b := by omega
        obtain ⟨p, q, w, hbeq⟩ := exists_node_of_hOf_pos hwb hbpos
        subst hbeq
        obtain ⟨hwp, hww, _, _, hpw1, hpw2⟩ := hwb
        obtain ⟨bsp, bsw, opq, oqw⟩ := bsb
        simp only [hOf_node] at hmaxab hbl hab1 hab2
        have hmaxpw : 1 + max (hOf p) (hOf w) = hOf r + 1 := by omega
        have hxq : kLt x q := oxb q (mem_keysM_node.mpr (Or.inr (Or.inl rfl)))
        have hqk : kLt q k := hol q (mem_keysM_node.mpr (Or.inr (Or.inr (mem_keysM_node.mpr (Or.inr (Or.inl rfl))))))
        have hres : rebalanceDel (mkN (node a x (node p q w (1 + max (hOf p) (hOf w)) (1 + cOf p + cOf w)) (1 + max (hOf a) (hOf (node p q w (1 + max (hOf p) (hOf w)) (1 + cOf p + cOf w)))) (1 + cOf a + cOf (node p q w (1 + max (hOf p) (hOf w)) (1 + cOf p + cOf w)))) k r)
            = mkN (mkN a x p) q (mkN w k r) := by
          show rebalanceDel (node (node a x (node p q w _ _) _ _) k r _ _) = _
          simp only [rebalanceDel]
          rw [if_neg (fun hh => absurd hh.2 (by simp only [balInt_node, hOf_node]; omega)),
             if_pos ⟨by simp only [balInt_node, hOf_node]; omega,
               by simp only [balInt_node, hOf_node]; omega⟩,
             rotateLeft_eq, rotateRight_mkN]
        rw [hres]
        refine ⟨?_, ?_, ?_, ?_, ?_, ?_⟩
        · refine WF_mkN_iff.mpr ⟨WF_mkN_iff.mpr ⟨hwa, hwp, by omega, by omega⟩,
            WF_mkN_iff.mpr ⟨hww, hwr, by omega, by omega⟩, ?_, ?_⟩
          · simp only [hOf_mkN]; omega
          · simp only [hOf_mkN]; omega
        · refine bstP_mkN_iff.mpr ⟨bstP_mkN_iff.mpr ⟨bsa, bsp, oax, ?_⟩,
            bstP_mkN_iff.mpr ⟨bsw, hsr, ?_, hor⟩, ?_, ?_⟩
          · intro y hy
            exact oxb y (mem_keysM_node.mpr (Or.inl hy))
          · intro y hy
            exact hol y (mem_keysM_node.mpr (Or.inr (Or.inr (mem_keysM_node.mpr (Or.inr (Or.inr hy))))))
          · intro y hy
            rw [keysM_mkN] at hy
            rcases Multiset.mem_add.mp hy with hy | hy
            · exact kLt_trans (oax y hy) hxq
            · rcases Multiset.mem_cons.mp hy with hy | hy
              · subst hy; exact hxq
              · exact opq y hy
          · intro y hy
            rw [keysM_mkN] at hy
            rcases Multiset.mem_add.mp hy with hy | hy
            · exact oqw y hy
            · rcases Multiset.mem_cons.mp hy with hy | hy
              · subst hy; exact hqk
              · exact kLt_trans hqk (hor y hy)
        · simp only [keysM_mkN, keysM_node]
          simp only [← Multiset.singleton_add]
          abel
        · simp only [hOf_mkN, hOf_node]; omega
        · simp only [hOf_mkN, hOf_node]; omega
        · intro h1 _; exfalso; simp only [hOf_node] at h1; omega
    · -- right-heavy by two
      have hrpos : 0 < hOf r := by omega
      obtain ⟨m, y, n, hreq⟩ := exists_node_of_hOf_pos hwr hrpos
      subst hreq
      obtain ⟨hwm, hwn, _, _, hmn1, hmn2⟩ := hwr
      obtain ⟨bsm, bsn, omy, oyn⟩ := hsr
      have hmaxmn : 1 + max (hOf m) (hOf n) = hOf l + 2 := by
        simpa using hcase
      have hky : kLt k y := hor y (mem_keysM_node.mpr (Or.inr (Or.inl rfl)))
      by_cases hbr : 0 ≤ (hOf n : Int) - (hOf m : Int)
      · -- RR shape: single left rotation
        have hres : rebalanceDel (mkN l k (node m y n (1 + max (hOf m) (hOf n)) (1 + cOf m + cOf n)))
            = mkN (mkN l k m) y n := by
          show rebalanceDel (node l k (node m y n _ _) _ _) = _
          simp only [rebalanceDel]
          rw [if_neg (fun hh => absurd hh.1 (by simp only [balInt_node, hOf_node]; omega)),
             if_neg (fun hh => absurd hh.1 (by simp only [balInt_node, hOf_node]; omega)),
             if_pos ⟨by simp only [balInt_node, hOf_node]; omega,
               by simp only [balInt_node]; omega⟩, rotateLeft_eq]
        rw [hres]
        refine ⟨?_, ?_, ?_, ?_, ?_, ?_⟩
        · refine WF_mkN_iff.mpr ⟨WF_mkN_iff.mpr ⟨hwl, hwm, by omega, by omega⟩, hwn, ?_, ?_⟩
          · simp only [hOf_mkN]; omega
          · simp only [hOf_mkN]; omega
        · refine bstP_mkN_iff.mpr ⟨bstP_mkN_iff.mpr ⟨hsl, bsm, hol, ?_⟩, bsn, ?_, oyn⟩
          · intro z hz
            exact hor z (mem_keysM_node.mpr (Or.inl hz))
          · intro z hz
            rw [keysM_mkN] at hz
            rcases Multiset.mem_add.mp hz with hz | hz
            · exact kLt_trans (hol z hz) hky
            · rcases Multiset.mem_cons.mp hz with hz | hz
              · subst hz; exact hky
              · exact omy z hz
        · simp only [keysM_mkN, keysM_node]
          simp only [← Multiset.singleton_add]
          abel
        · simp only [hOf_mkN, hOf_node]; omega
        · simp only [hOf_mkN, hOf_node]; omega
        · intro _ h2; exfalso; simp only [hOf_node] at h2; omega
      · -- RL shape
        push_neg at hbr
        have hmpos : 0 < hOf m := by omega
        obtain ⟨p, q, w, hmeq⟩ := exists_node_of_hOf_pos hwm hmpos
        subst hmeq
        obtain ⟨hwp, hww, _, _, hpw1, hpw2⟩ := hwm
        obtain ⟨bsp, bsw, opq, oqw⟩ := bsm
        simp only [hOf_node] at hmaxmn hbr hmn1 hmn2
        have hmaxpw : 1 + max (hOf p) (hOf w) = hOf l + 1 := by omega
        have hqy : kLt q y := omy q (mem_keysM_node.mpr (Or.inr (Or.inl rfl)))
        have hkq : kLt k q := hor q (mem_keysM_node.mpr (Or.inl (mem_keysM_node.mpr (Or.inr (Or.inl rfl)))))
        have hres : rebalanceDel (mkN l k (node (node p q w (1 + max (hOf p) (hOf w)) (1 + cOf p + cOf w)) y n (1 + max (hOf (node p q w (1 + max (hOf p) (hOf w)) (1 + cOf p + cOf w))) (hOf n)) (1 + cOf (node p q w (1 + max (hOf p) (hOf w)) (1 + cOf p + cOf w)) + cOf n)))
            = mkN (mkN l k p) q (mkN w y n) := by
          show rebalanceDel (node l k (node (node p q w _ _) y n _ _) _ _) = _
          simp only [rebalanceDel]
          rw [if_neg (fun hh => absurd hh.1 (by simp only [balInt_node, hOf_node]; omega)),
             if_neg (fun hh => absurd hh.1 (by simp only [balInt_node, hOf_node]; omega)),
             if_neg (fun hh => absurd hh.2 (by simp only [balInt_node, hOf_node]; omega)),
             if_pos ⟨by simp only [balInt_node, hOf_node]; omega,
               by simp only [balInt_node, hOf_node]; omega⟩,
             rotateRight_eq, rotateLeft_mkN]
        rw [hres]
        refine ⟨?_, ?_, ?_, ?_, ?_, ?_⟩
        · refine WF_mkN_iff.mpr ⟨WF_mkN_iff.mpr ⟨hwl, hwp, by omega, by omega⟩,
            WF_mkN_iff.mpr ⟨hww, hwn, by omega, by omega⟩, ?_, ?_⟩
          · simp only [hOf_mkN]; omega
          · simp only [hOf_mkN]; omega
        · refine bstP_mkN_iff.mpr ⟨bstP_mkN_iff.mpr ⟨hsl, bsp, hol, ?_⟩,
            bstP_mkN_iff.mpr ⟨bsw, bsn, ?_, oyn⟩, ?_, ?_⟩
          · intro z hz
            exact hor z (mem_keysM_node.mpr (Or.inl (mem_keysM_node.mpr (Or.inl hz))))
          · intro z hz
            exact omy z (mem_keysM_node.mpr (Or.inr (Or.inr hz)))
          · intro z hz
            rw [keysM_mkN] at hz
            rcases Multiset.mem_add.mp hz with hz | hz
            · exact kLt_trans (hol z hz) hkq
            · rcases Multiset.mem_cons.mp hz with hz | hz
              · subst hz; exact hkq
              · exact opq z hz
          · intro z hz
            rw [keysM_mkN] at hz
            rcases Multiset.mem_add.mp hz with hz | hz
            · exact oqw z hz
            · rcases Multiset.mem_cons.mp hz with hz | hz
              · subst hz; exact hqy
              · exact kLt_trans hqy (oyn z hz)
        · simp only [keysM_mkN, keysM_node]
          simp only [← Multiset.singleton_add]
          abel
        · simp only [hOf_mkN, hOf_node]; omega
        · simp only [hOf_mkN, hOf_node]; omega
        · intro _ h2; exfalso; simp only [hOf_node] at h2; omega

set_option maxHeartbeats 4000000 in
theorem removeAvl_spec : ∀ (t : ZTree), WF t → bstP t → ∀ (key : K),
    WF (removeAvl t key) ∧ bstP (removeAvl t key) ∧
    keysM (removeAvl t key) = (keysM t).erase key ∧
    (hOf (removeAvl t key) = hOf t ∨ hOf (removeAvl t key) + 1 = hOf t) := by
  intro t
  induction t with
  | nil =>
    intro _ _ key
    exact ⟨trivial, trivial, by simp [removeAvl], Or.inl rfl⟩
  | node l k r h c ihl ihr =>
    intro hwf hbst key
    obtain ⟨hwl, hwr, hh, hc, hd1, hd2⟩ := hwf
    obtain ⟨hsl, hsr, hol, hor⟩ := hbst
    rcases lt_trichotomy (kcmp key k) 0 with hlt | heq | hgt
    · -- the key would be in the left subtree
      have hkltk : kLt key k := hlt
      have hstep : removeAvl (node l k r h c) key
          = rebalanceDel (mkN (removeAvl l key) k r) := by
        conv_lhs => rw [removeAvl.eq_def]
        simp only [if_pos hlt, update_node]
      obtain ⟨iwl, isl, ikeys, ihh⟩ := ihl hwl hsl key
      obtain ⟨l', hl'⟩ : ∃ l2, removeAvl l key = l2 := ⟨_, rfl⟩
      rw [hl'] at iwl isl ikeys ihh hstep
      have hol2 : ∀ x ∈ keysM l', kLt x k := by
        intro x hx
        rw [ikeys] at hx
        exact hol x (Multiset.mem_of_mem_erase hx)
      obtain ⟨rw1, rw2, rkeys, rlo, rhi, rex⟩ :=
        rebalanceDel_spec l' k r iwl hwr isl hsr hol2 hor (by omega) (by omega)
      rw [hstep]
      refine ⟨rw1, rw2, ?_, ?_⟩
      · rw [rkeys, ikeys, keysM_node]
        have hnotmem : key ∉ (k ::ₘ keysM r) := by
          intro hmem
          rcases Multiset.mem_cons.mp hmem with hmem | hmem
          · subst hmem; exact kLt_irrefl key hkltk
          · exact kLt_irrefl key (kLt_trans hkltk (hor key hmem))
        rw [erase_add_of_not_mem_right hnotmem]
      · by_cases hbal2 : hOf l' ≤ hOf r + 1 ∧ hOf r ≤ hOf l' + 1
        · have := rex hbal2.1 hbal2.2
          simp only [hOf_node]
          omega
        · simp only [hOf_node]
          omega
    · -- the key is at this node
      have hkeq : key = k := kcmp_eq_zero_iff.mp heq
      subst hkeq
      have hneg1 : ¬ (kcmp key key < 0) := by
        rw [kcmp_eq_zero_iff.mpr rfl]
        omega
      have hneg2 : ¬ (0 < kcmp key key) := by
        rw [kcmp_eq_zero_iff.mpr rfl]
        omega
      cases l with
      | nil =>
        have hstep : removeAvl (node nil key r h c) key = r := by
          conv_lhs => rw [removeAvl.eq_def]
          simp only [if_neg hneg1, if_neg hneg2]
        rw [hstep]
        refine ⟨hwr, hsr, ?_, ?_⟩
        · simp
        · simp only [hOf_node]
          simp only [hOf_nil, hOf_node] at hh hd1 hd2
          omega
      | node la lk lb lh lc =>
        cases r with
        | nil =>
          have hstep : removeAvl (node (node la lk lb lh lc) key nil h c)
              key = node la lk lb lh lc := by
            conv_lhs => rw [removeAvl.eq_def]
            simp only [if_neg hneg1, if_neg hneg2]
          rw [hstep]
          refine ⟨hwl, hsl, ?_, ?_⟩
          · have hknot : key ∉ keysM (node la lk lb lh lc) := by
              intro hmem
              exact kLt_irrefl key (hol key hmem)
            have houter : keysM (node (node la lk lb lh lc) key nil h c)
                = keysM (node la lk lb lh lc) + (key ::ₘ keysM nil) := rfl
            rw [houter, keysM_nil, erase_add_of_not_mem_left hknot,
               Multiset.erase_cons_head]
            simp
          · simp only [hOf_node]
            simp only [hOf_nil, hOf_node] at hh hd1 hd2
            omega
        | node ra rk rb rh rc =>
          have hstep : removeAvl (node (node la lk lb lh lc) key (node ra rk rb rh rc) h c) key
              = rebalanceDel (mkN (node la lk lb lh lc)
                  (minKeyD (node ra rk rb rh rc))
                  (removeAvl (node ra rk rb rh rc) (minKeyD (node ra rk rb rh rc)))) := by
            conv_lhs => rw [removeAvl.eq_def]
            simp only [if_neg hneg1, if_neg hneg2, update_node]
          obtain ⟨skmem, skmin⟩ := minKeyD_spec (node ra rk rb rh rc) (by intro h0; cases h0) hsr
          obtain ⟨sk, hsk⟩ : ∃ s0, minKeyD (node ra rk rb rh rc) = s0 := ⟨_, rfl⟩
          rw [hsk] at skmem skmin hstep
          obtain ⟨iwr, isr, ikeys, ihh⟩ := ihr hwr hsr sk
          obtain ⟨r', hr'⟩ : ∃ r2, removeAvl (node ra rk rb rh rc) sk = r2 := ⟨_, rfl⟩
          rw [hr'] at iwr isr ikeys ihh hstep
          have hol2 : ∀ x ∈ keysM (node la lk lb lh lc), kLt x sk := by
            intro x hx
            exact kLt_trans (hol x hx) (hor sk skmem)
          have hor2 : ∀ x ∈ keysM r', kLt sk x := by
            intro x hx
            rw [ikeys] at hx
            have hnd : (keysM (node ra rk rb rh rc)).Nodup := bstP_nodup hsr
            rw [Multiset.Nodup.mem_erase_iff hnd] at hx
            rcases skmin x hx.2 with he | he
            · exact absurd he hx.1
            · exact he
          obtain ⟨rw1, rw2, rkeys, rlo, rhi, rex⟩ :=
            rebalanceDel_spec (node la lk lb lh lc) sk r' hwl iwr hsl isr hol2 hor2
              (by omega) (by omega)
          rw [hstep]
          refine ⟨rw1, rw2, ?_, ?_⟩
          · rw [rkeys, ikeys, Multiset.cons_erase skmem]
            have hknot : key ∉ keysM (node la lk lb lh lc) := by
              intro hmem
              exact kLt_irrefl key (hol key hmem)
            have houter : keysM (node (node la lk lb lh lc) key (node ra rk rb rh rc) h c)
                = keysM (node la lk lb lh lc) + (key ::ₘ keysM (node ra rk rb rh rc)) := rfl
            rw [houter, erase_add_of_not_mem_left hknot, Multiset.erase_cons_head]
          · by_cases hbal2 : lh ≤ hOf r' + 1 ∧ hOf r' ≤ lh + 1
            · have hex := rex hbal2.1 hbal2.2
              simp only [hOf_node] at hex ihh hd1 hd2 rlo rhi hh ⊢
              omega
            · simp only [hOf_node] at ihh hd1 hd2 rlo rhi hh ⊢
              omega
    · -- the key would be in the right subtree
      have hkgtk : kLt k key := kcmp_pos_iff.mp hgt
      have hstep : removeAvl (node l k r h c) key
          = rebalanceDel (mkN l k (removeAvl r key)) := by
        conv_lhs => rw [removeAvl.eq_def]
        simp only [if_neg (show ¬ kcmp key k < 0 by omega), if_pos hgt, update_node]
      obtain ⟨iwr, isr, ikeys, ihh⟩ := ihr hwr hsr key
      obtain ⟨r', hr'⟩ : ∃ r2, removeAvl r key = r2 := ⟨_, rfl⟩
      rw [hr'] at iwr isr ikeys ihh hstep
      have hor2 : ∀ x ∈ keysM r', kLt k x := by
        intro x hx
        rw [ikeys] at hx
        exact hor x (Multiset.mem_of_mem_erase hx)
      obtain ⟨rw1, rw2, rkeys, rlo, rhi, rex⟩ :=
        rebalanceDel_spec l k r' hwl iwr hsl isr hol hor2 (by omega) (by omega)
      rw [hstep]
      refine ⟨rw1, rw2, ?_, ?_⟩
      · rw [rkeys, ikeys, keysM_node]
        have hknotl : key ∉ keysM l := by
          intro hmem
          exact kLt_irrefl key (kLt_trans (hol key hmem) hkgtk)
        have hkne : k ≠ key := by
          intro he
          rw [he] at hkgtk
          exact kLt_irrefl key hkgtk
        rw [erase_add_of_not_mem_left hknotl, Multiset.erase_cons_tail _ hkne]
      · by_cases hbal2 : hOf l ≤ hOf r' + 1 ∧ hOf r' ≤ hOf l + 1
        · have := rex hbal2.1 hbal2.2
          simp only [hOf_node]
          omega
        · simp only [hOf_node]
          omega

/-! ### Find-by-member, the sorted-set invariant, and reachability -/

/-- Multiset of member strings stored in the tree. -/
def membersM (t : ZTree) : Multiset String := (keysM t).map Prod.snd

theorem findByMember_some : ∀ {t : ZTree} {m : String} {k0 : K},
    findByMember t m = some k0 → k0 ∈ keysM t ∧ k0.2 = m := by
  intro t
  induction t with
  | nil => intro m k0 h; cases h
  | node l k r h c ihl ihr =>
    intro m k0 hf
    rw [findByMember] at hf
    by_cases hk : k.2 = m
    · rw [if_pos hk] at hf
      injection hf with hf
      subst hf
      exact ⟨mem_keysM_node.mpr (Or.inr (Or.inl rfl)), hk⟩
    · rw [if_neg hk] at hf
      rcases hfl : findByMember l m with _ | kl
      · rw [hfl] at hf
        obtain ⟨hmem, he⟩ := ihr hf
        exact ⟨mem_keysM_node.mpr (Or.inr (Or.inr hmem)), he⟩
      · rw [hfl] at hf
        injection hf with hf
        subst hf
        obtain ⟨hmem, he⟩ := ihl hfl
        exact ⟨mem_keysM_node.mpr (Or.inl hmem), he⟩

theorem findByMember_none : ∀ {t : ZTree} {m : String},
    findByMember t m = none → ∀ x ∈ keysM t, x.2 ≠ m := by
  intro t
  induction t with
  | nil => intro m _ x hx; simp at hx
  | node l k r h c ihl ihr =>
    intro m hf x hx
    rw [findByMember] at hf
    by_cases hk : k.2 = m
    · rw [if_pos hk] at hf; cases hf
    · rw [if_neg hk] at hf
      rcases hfl : findByMember l m with _ | kl
      · rw [hfl] at hf
        rcases mem_keysM_node.mp hx with hx | hx | hx
        · exact ihl hfl x hx
        · subst hx; exact hk
        · exact ihr hf x hx
      · rw [hfl] at hf; cases hf

/-- Combined invariant of every reachable sorted-set tree: correct height
and count fields, AVL balance, strict BST order, and distinct members. -/
def Inv (t : ZTree) : Prop := WF t ∧ bstP t ∧ (membersM t).Nodup

theorem mem_unique_member {t : ZTree} (hnd : (membersM t).Nodup) {k1 k2 : K}
    (h1 : k1 ∈ keysM t) (h2 : k2 ∈ keysM t) (he : k1.2 = k2.2) : k1 = k2 :=
  Multiset.inj_on_of_nodup_map hnd k1 h1 k2 h2 he

theorem membersM_nodup_of_le {s : Multiset K} {t : ZTree}
    (hle : s ≤ keysM t) (hnd : (membersM t).Nodup) : (s.map Prod.snd).Nodup :=
  Multiset.nodup_of_le (Multiset.map_le_map hle) hnd

theorem insert_keys_of_fresh {t : ZTree} (hwf : WF t) (hbst : bstP t)
    {s : ℚ} {m : String} (hm : m ∉ membersM t) :
    WF (insertAvl t (s, m)) ∧ bstP (insertAvl t (s, m)) ∧
    keysM (insertAvl t (s, m)) = (s, m) ::ₘ keysM t := by
  have hfresh : ∀ x ∈ keysM t, x ≠ (s, m) := by
    intro x hx he
    exact hm (by
      rw [he] at hx
      exact Multiset.mem_map_of_mem Prod.snd hx)
  obtain ⟨h1, h2, h3, _, _⟩ := insertAvl_spec (s, m) t hwf hbst hfresh
  exact ⟨h1, h2, h3⟩

theorem Inv_insert_fresh {t : ZTree} (hinv : Inv t) {s : ℚ} {m : String}
    (hm : m ∉ membersM t) : Inv (insertAvl t (s, m)) := by
  obtain ⟨hwf, hbst, hnd⟩ := hinv
  obtain ⟨h1, h2, h3⟩ := insert_keys_of_fresh hwf hbst hm
  refine ⟨h1, h2, ?_⟩
  rw [membersM, h3, Multiset.map_cons]
  exact Multiset.nodup_cons.mpr ⟨hm, hnd⟩

theorem zsetAdd_cases (t : ZTree) (s : ℚ) (m : String) (hinv : Inv t) :
    Inv (zsetAdd t s m).2 ∧
    ((s, m) ∈ keysM t → zsetAdd t s m = (0, t)) ∧
    (∀ sc, (sc, m) ∈ keysM t → sc ≠ s →
        (zsetAdd t s m).1 = 0 ∧
        keysM (zsetAdd t s m).2 = (s, m) ::ₘ (keysM t).erase (sc, m)) ∧
    ((∀ sc : ℚ, (sc, m) ∉ keysM t) →
        (zsetAdd t s m).1 = 1 ∧ keysM (zsetAdd t s m).2 = (s, m) ::ₘ keysM t) := by
  obtain ⟨hwf, hbst, hnd⟩ := hinv
  rcases hfind : findByMember t m with _ | old
  · -- member absent
    have hnone := findByMember_none hfind
    have hfreshm : m ∉ membersM t := by
      intro hmem
      rw [membersM] at hmem
      obtain ⟨x, hx, he⟩ := Multiset.mem_map.mp hmem
      exact hnone x hx he
    have hres : zsetAdd t s m = (1, insertAvl t (s, m)) := by
      simp only [zsetAdd, hfind]
    obtain ⟨h1, h2, h3⟩ := insert_keys_of_fresh hwf hbst hfreshm
    refine ⟨?_, ?_, ?_, ?_⟩
    · rw [hres]; exact Inv_insert_fresh ⟨hwf, hbst, hnd⟩ hfreshm
    · intro hmem
      exact absurd rfl (hnone (s, m) hmem)
    · intro sc hmem _
      exact absurd rfl (hnone (sc, m) hmem)
    · intro _
      rw [hres]
      exact ⟨rfl, h3⟩
  · -- member found
    obtain ⟨holdmem, holdm⟩ := findByMember_some hfind
    by_cases hsc : old.1 = s
    · have hres : zsetAdd t s m = (0, t) := by
        simp only [zsetAdd, hfind, if_pos hsc]
      refine ⟨?_, ?_, ?_, ?_⟩
      · rw [hres]; exact ⟨hwf, hbst, hnd⟩
      · intro _; exact hres
      · intro sc hmem hne
        have heqold : (sc, m) = old := mem_unique_member hnd hmem holdmem (by rw [holdm])
        rw [← heqold] at hsc
        exact absurd hsc hne
      · intro habs
        have : (old.1, m) ∈ keysM t := by
          have : old = (old.1, m) := Prod.ext rfl holdm
          rw [← this]
          exact holdmem
        exact absurd this (habs old.1)
    · have hres : zsetAdd t s m = (0, insertAvl (removeAvl t old) (s, m)) := by
        simp only [zsetAdd, hfind, if_neg hsc]
      obtain ⟨rw1, rw2, rkeys, _⟩ := removeAvl_spec t hwf hbst old
      have hmrem : m ∉ membersM (removeAvl t old) := by
        intro hmem
        rw [membersM, rkeys] at hmem
        obtain ⟨x, hx, he⟩ := Multiset.mem_map.mp hmem
        have hxt : x ∈ keysM t := Multiset.mem_of_mem_erase hx
        have : x = old := mem_unique_member hnd hxt holdmem (by rw [he, holdm])
        subst this
        rw [Multiset.Nodup.mem_erase_iff (bstP_nodup hbst)] at hx
        exact hx.1 rfl
      obtain ⟨h1, h2, h3⟩ := insert_keys_of_fresh rw1 rw2 hmrem
      have hndrem : (membersM (removeAvl t old)).Nodup := by
        rw [membersM, rkeys]
        exact membersM_nodup_of_le (Multiset.erase_le old (keysM t)) hnd
      refine ⟨?_, ?_, ?_, ?_⟩
      · rw [hres]
        exact Inv_insert_fresh ⟨rw1, rw2, hndrem⟩ hmrem
      · intro hmem
        have : (s, m) = old := mem_unique_member hnd hmem holdmem (by rw [holdm])
        rw [← this] at hsc
        exact absurd rfl hsc
      · intro sc hmem hne
        have heqold : (sc, m) = old := mem_unique_member hnd hmem holdmem (by rw [holdm])
        rw [hres]
        refine ⟨rfl, ?_⟩
        rw [h3, rkeys, heqold]
      · intro habs
        have : (old.1, m) ∈ keysM t := by
          have : old = (old.1, m) := Prod.ext rfl holdm
          rw [← this]
          exact holdmem
        exact absurd this (habs old.1)

theorem Inv_zsetAdd (t : ZTree) (s : ℚ) (m : String) (hinv : Inv t) :
    Inv (zsetAdd t s m).2 := (zsetAdd_cases t s m hinv).1

theorem Inv_zsetRemove (t : ZTree) (m : String) (hinv : Inv t) :
    Inv (zsetRemove t m).2 := by
  obtain ⟨hwf, hbst, hnd⟩ := hinv
  rcases hfind : findByMember t m with _ | old
  · have hres : zsetRemove t m = (0, t) := by
      simp only [zsetRemove, hfind]
    rw [hres]
    exact ⟨hwf, hbst, hnd⟩
  · have hres : zsetRemove t m = (1, removeAvl t old) := by
      simp only [zsetRemove, hfind]
    rw [hres]
    obtain ⟨rw1, rw2, rkeys, _⟩ := removeAvl_spec t hwf hbst old
    refine ⟨rw1, rw2, ?_⟩
    rw [membersM, rkeys]
    exact membersM_nodup_of_le (Multiset.erase_le old (keysM t)) hnd

/-! ### Real heights and the claimed balance/count invariant -/

theorem hOf_eq_realHeight : ∀ {t : ZTree}, WF t → hOf t = realHeight t := by
  intro t
  induction t with
  | nil => intro _; rfl
  | node l k r h c ihl ihr =>
    intro hwf
    obtain ⟨hwl, hwr, hh, _, _, _⟩ := hwf
    rw [hOf_node, realHeight, hh, ihl hwl, ihr hwr]

/-- The invariant claimed in the specification, checked over the whole
tree: at every node the real heights of the two children differ by at
most one, and the stored `count` field is one more than the children's
counts. -/
def balCountOk : ZTree → Bool
  | nil => true
  | node l _ r _ c =>
    balCountOk l && balCountOk r &&
    decide (realHeight l ≤ realHeight r + 1) &&
    decide (realHeight r ≤ realHeight l + 1) &&
    decide (c = 1 + cOf l + cOf r)

theorem balCountOk_of_WF : ∀ {t : ZTree}, WF t → balCountOk t = true := by
  intro t
  induction t with
  | nil => intro _; rfl
  | node l k r h c ihl ihr =>
    intro hwf
    obtain ⟨hwl, hwr, hh, hc, hd1, hd2⟩ := hwf
    rw [balCountOk]
    simp only [Bool.and_eq_true, decide_eq_true_eq]
    rw [← hOf_eq_realHeight hwl, ← hOf_eq_realHeight hwr]
    exact ⟨⟨⟨⟨ihl hwl, ihr hwr⟩, hd1⟩, hd2⟩, hc⟩

/-! ### Rank queries against the in-order traversal -/

theorem inorder_coe_eq_keysM : ∀ (t : ZTree), (inorder t : Multiset K) = keysM t := by
  intro t
  induction t with
  | nil => rfl
  | node l k r h c ihl ihr =>
    rw [inorder_node, keysM_node, ← ihl, ← ihr]
    simp

theorem mem_inorder_iff {t : ZTree} {x : K} : x ∈ inorder t ↔ x ∈ keysM t := by
  rw [← inorder_coe_eq_keysM]
  exact (Multiset.mem_coe).symm

theorem length_inorder {t : ZTree} (hwf : WF t) : (inorder t).length = cOf t := by
  rw [cOf_eq_card hwf, ← inorder_coe_eq_keysM]
  simp

theorem pairwise_inorder : ∀ {t : ZTree}, bstP t → List.Pairwise kLt (inorder t) := by
  intro t
  induction t with
  | nil => intro _; exact List.Pairwise.nil
  | node l k r h c ihl ihr =>
    intro hbst
    obtain ⟨hsl, hsr, hol, hor⟩ := hbst
    rw [inorder_node]
    rw [List.pairwise_append]
    refine ⟨ihl hsl, ?_, ?_⟩
    · rw [List.pairwise_cons]
      exact ⟨fun y hy => hor y (mem_inorder_iff.mp hy), ihr hsr⟩
    · intro x hx y hy
      rcases List.mem_cons.mp hy with hy | hy
      · subst hy; exact hol x (mem_inorder_iff.mp hx)
      · exact kLt_trans (hol x (mem_inorder_iff.mp hx)) (hor y (mem_inorder_iff.mp hy))

theorem rankGo_eq_getElem : ∀ {t : ZTree}, WF t → ∀ {i : Nat}, i < cOf t →
    rankGo t i = (inorder t)[i]? := by
  intro t
  induction t with
  | nil => intro _ i hi; simp at hi
  | node l k r h c ihl ihr =>
    intro hwf i hi
    have hwf' := hwf
    obtain ⟨hwl, hwr, hh, hc, _, _⟩ := hwf'
    have hlenl : (inorder l).length = cOf l := length_inorder hwl
    rw [rankGo, inorder_node]
    rcases lt_trichotomy i (cOf l) with hlt | heq | hgt
    · rw [if_neg (by omega), if_pos hlt]
      rw [List.getElem?_append_left (by omega)]
      exact ihl hwl hlt
    · rw [if_pos heq]
      rw [List.getElem?_append_right (by omega)]
      subst heq
      simp [hlenl]
    · rw [if_neg (by omega), if_neg (by omega)]
      rw [List.getElem?_append_right (by omega)]
      have hcr : i - cOf l - 1 < cOf r := by
        rw [cOf_node] at hi
        omega
      rw [ihr hwr hcr]
      have : i - (inorder l).length = (i - cOf l - 1) + 1 := by omega
      rw [this]
      simp

theorem getByRank_eq_getElem {t : ZTree} (hwf : WF t) (i : Nat) :
    getByRank t i = (inorder t)[i]? := by
  rw [getByRank]
  by_cases hi : cOf t ≤ i
  · rw [if_pos hi]
    have : (inorder t).length ≤ i := by rw [length_inorder hwf]; exact hi
    exact (List.getElem?_eq_none this).symm
  · rw [if_neg hi]
    exact rankGo_eq_getElem hwf (by omega)

end ZTree

/-! ### Reachable sorted sets -/

/-- One sorted-set operation: `zset_add` with a score and member, or
`zset_remove` with a member. -/
inductive ZOp : Type where
  | add (s : ℚ) (m : String) : ZOp
  | rem (m : String) : ZOp

/-- Apply one operation to a tree, as the public API of `zset.h` does. -/
def applyOp (t : ZTree) : ZOp → ZTree
  | ZOp.add s m => (zsetAdd t s m).2
  | ZOp.rem m => (zsetRemove t m).2

/-- Run a sequence of operations from the empty sorted set
(`zset_create` starts with a null root). -/
def runOps (ops : List ZOp) : ZTree := ops.foldl applyOp ZTree.nil

theorem Inv_applyOp {t : ZTree} (hinv : ZTree.Inv t) (op : ZOp) :
    ZTree.Inv (applyOp t op) := by
  cases op with
  | add s m => exact ZTree.Inv_zsetAdd t s m hinv
  | rem m => exact ZTree.Inv_zsetRemove t m hinv

theorem Inv_runOps (ops : List ZOp) : ZTree.Inv (runOps ops) := by
  have hgen : ∀ (l : List ZOp) (t : ZTree), ZTree.Inv t → ZTree.Inv (l.foldl applyOp t) := by
    intro l
    induction l with
    | nil => intro t ht; exact ht
    | cons op rest ih =>
      intro t ht
      exact ih _ (Inv_applyOp ht op)
  exact hgen ops ZTree.nil ⟨trivial, trivial, by simp [ZTree.membersM]⟩

/-! ### The binary min-heap of `minheap.h`

The heap stores pointers into an array; the model is a `List` of items
with the array indexing of the C code. The public operations are
`heap_push`, `heap_peek` and `heap_pop`; the comparison function is a
parameter, as in the C library. -/

/-- Embedding of `_heap_swap` on positions `i` and `j` of the array. -/
def heapSwap {α : Type} [Inhabited α] (l : List α) (i j : Nat) : List α :=
  (l.set i (l.getD j default)).set j (l.getD i default)

/-- Embedding of `_heap_sift_up` starting at index `i`. -/
def siftUp {α : Type} [Inhabited α] (cmp : α → α → Int) (l : List α) (i : Nat) : List α :=
  if i = 0 then l
  else if cmp (l.getD i default) (l.getD ((i - 1) / 2) default) < 0 then
    siftUp cmp (heapSwap l i ((i - 1) / 2)) ((i - 1) / 2)
  else l
termination_by i
decreasing_by
  omega

/-- Index of the smaller child (or `i` itself), as computed by one pass of
the `_heap_sift_down` loop body. -/
def minIdx {α : Type} [Inhabited α] (cmp : α → α → Int) (l : List α) (i : Nat) : Nat :=
  let mi1 := if 2 * i + 1 < l.length ∧ cmp (l.getD (2 * i + 1) default) (l.getD i default) < 0
    then 2 * i + 1 else i
  if 2 * i + 2 < l.length ∧ cmp (l.getD (2 * i + 2) default) (l.getD mi1 default) < 0
    then 2 * i + 2 else mi1

theorem length_heapSwap {α : Type} [Inhabited α] (l : List α) (i j : Nat) :
    (heapSwap l i j).length = l.length := by
  simp [heapSwap]

theorem minIdx_ge {α : Type} [Inhabited α] (cmp : α → α → Int) (l : List α) (i : Nat) :
    i ≤ minIdx cmp l i ∧ (minIdx cmp l i ≠ i → minIdx cmp l i < l.length) := by
  rw [minIdx]
  split_ifs with h1 h2 h3 <;> simp <;> omega

/-- Embedding of `_heap_sift_down` starting at index `i`. -/
def siftDown {α : Type} [Inhabited α] (cmp : α → α → Int) (l : List α) (i : Nat) : List α :=
  if h : minIdx cmp l i = i then l
  else siftDown cmp (heapSwap l i (minIdx cmp l i)) (minIdx cmp l i)
termination_by l.length - i
decreasing_by
  have h1 := minIdx_ge cmp l i
  rw [length_heapSwap]
  omega

/-- Embedding of `heap_push`: append at the end, then sift up from the
last index. -/
def heapPush {α : Type} [Inhabited α] (cmp : α → α → Int) (l : List α) (x : α) : List α :=
  siftUp cmp (l ++ [x]) l.length

/-- Embedding of `heap_peek`. -/
def heapPeek {α : Type} (l : List α) : Option α := l.head?

/-- Embedding of `heap_pop`: return the root, move the last item to the
root, shrink, and sift down from the root. -/
def heapPop {α : Type} [Inhabited α] (cmp : α → α → Int) (l : List α) : Option (α × List α) :=
  match l with
  | [] => none
  | x :: rest =>
    some (x, siftDown cmp (((x :: rest).set 0 ((x :: rest).getLast (by simp))).dropLast) 0)

/-- Expiry bookkeeping entries (`expiry_entry_t`): expiry timestamp in
milliseconds and a copy of the key. -/
abbrev ExpEntry : Type := Int × String

instance : Inhabited ExpEntry := ⟨(0, "")⟩

/-- Embedding of `compare_expiry_entry`: compare by timestamp only. -/
def cmpE (a b : ExpEntry) : Int :=
  if a.1 < b.1 then -1 else if b.1 < a.1 then 1 else 0

/-- Timestamp stored at index `j` of the heap array. -/
def vAt (l : List ExpEntry) (j : Nat) : Int := (l.getD j default).1

/-- The binary-heap ordering invariant: every non-root item is at least
its parent. -/
def IsMinHeap (l : List ExpEntry) : Prop :=
  ∀ j, 0 < j → j < l.length → vAt l ((j - 1) / 2) ≤ vAt l j

theorem cmpE_neg_iff {a b : ExpEntry} : cmpE a b < 0 ↔ a.1 < b.1 := by
  unfold cmpE
  split_ifs with h1 h2
  · simp [h1]
  · constructor
    · intro h; exact absurd h (by norm_num)
    · intro h; exact absurd h h1
  · constructor
    · intro h; exact absurd h (lt_irrefl 0)
    · intro h; exact absurd h h1

theorem vAt_set {l : List ExpEntry} {i j : Nat} {a : ExpEntry} :
    vAt (l.set i a) j = if i = j ∧ i < l.length then a.1 else vAt l j := by
  unfold vAt
  rw [List.getD_eq_getElem?_getD, List.getD_eq_getElem?_getD, List.getElem?_set]
  by_cases h1 : i = j
  · subst h1
    by_cases h2 : i < l.length
    · simp [h2]
    · have hnone : l[i]? = none := List.getElem?_eq_none (by omega)
      simp [h2, hnone]
  · simp [h1]

theorem vAt_heapSwap {l : List ExpEntry} {i j : Nat} (hi : i < l.length) (hj : j < l.length)
    {k : Nat} :
    vAt (heapSwap l i j) k = if k = j then vAt l i else if k = i then vAt l j else vAt l k := by
  unfold heapSwap
  rw [vAt_set]
  by_cases h1 : k = j
  · rw [if_pos ⟨h1.symm, by simpa using hj⟩, if_pos h1]
    rfl
  · rw [if_neg (fun hh => h1 hh.1.symm), vAt_set]
    by_cases h2 : k = i
    · rw [if_pos ⟨h2.symm, hi⟩, if_neg h1, if_pos h2]
      rfl
    · rw [if_neg (fun hh => h2 hh.1.symm), if_neg h1, if_neg h2]

theorem multiset_set : ∀ (l : List ExpEntry) (i : Nat) (a : ExpEntry), i < l.length →
    ((l.set i a : List ExpEntry) : Multiset ExpEntry) + {l.getD i default}
      = (l : Multiset ExpEntry) + {a} := by
  intro l
  induction l with
  | nil => intro i a h; simp at h
  | cons x xs ih =>
    intro i a h
    cases i with
    | zero =>
      show ((a :: xs : List ExpEntry) : Multiset ExpEntry) + {(x :: xs).getD 0 default}
          = ((x :: xs : List ExpEntry) : Multiset ExpEntry) + {a}
      simp only [List.getD_cons_zero, ← Multiset.cons_coe, ← Multiset.singleton_add]
      abel
    | succ n =>
      show ((x :: xs.set n a : List ExpEntry) : Multiset ExpEntry) + {(x :: xs).getD (n + 1) default}
          = ((x :: xs : List ExpEntry) : Multiset ExpEntry) + {a}
      have hn : n < xs.length := by simpa using h
      have hih := ih n a hn
      simp only [List.getD_cons_succ, ← Multiset.cons_coe, ← Multiset.singleton_add] at hih ⊢
      rw [add_assoc, hih, ← add_assoc]

theorem multiset_heapSwap {l : List ExpEntry} {i j : Nat} (hi : i < l.length)
    (hj : j < l.length) :
    ((heapSwap l i j : List ExpEntry) : Multiset ExpEntry) = (l : Multiset ExpEntry) := by
  unfold heapSwap
  have h1 := multiset_set l i (l.getD j default) hi
  have h2 := multiset_set (l.set i (l.getD j default)) j (l.getD i default)
    (by simpa using hj)
  have hgd : (l.set i (l.getD j default)).getD j default = l.getD j default := by
    by_cases he : i = j
    · subst he
      rw [List.getD_eq_getElem?_getD, List.getElem?_set, if_pos rfl, if_pos hi]
      rfl
    · rw [List.getD_eq_getElem?_getD, List.getElem?_set, if_neg he,
        ← List.getD_eq_getElem?_getD]
  rw [hgd] at h2
  exact add_right_cancel (h2.trans h1)

theorem minIdx_lt_length {l : List ExpEntry} {i : Nat} (h : minIdx cmpE l i ≠ i) :
    i < l.length ∧ minIdx cmpE l i < l.length := by
  have h1 := minIdx_ge cmpE l i
  have h2 := h1.2 h
  rw [minIdx] at h h2 ⊢
  constructor
  · split_ifs at h2 with ha hb <;> omega
  · exact h2

theorem length_siftDown (l : List ExpEntry) (i : Nat) :
    (siftDown cmpE l i).length = l.length := by
  induction l, i using siftDown.induct cmpE with
  | case1 l i h => rw [siftDown, dif_pos h]
  | case2 l i h ih =>
    rw [siftDown, dif_neg h]
    rw [ih, length_heapSwap]

theorem multiset_siftDown (l : List ExpEntry) (i : Nat) :
    ((siftDown cmpE l i : List ExpEntry) : Multiset ExpEntry) = (l : Multiset ExpEntry) := by
  induction l, i using siftDown.induct cmpE with
  | case1 l i h => rw [siftDown, dif_pos h]
  | case2 l i h ih =>
    rw [siftDown, dif_neg h]
    obtain ⟨hi, hmi⟩ := minIdx_lt_length h
    rw [ih, multiset_heapSwap hi hmi]

theorem minIdx_spec (l : List ExpEntry) (i : Nat) :
    (minIdx cmpE l i = i →
      (2 * i + 1 < l.length → vAt l i ≤ vAt l (2 * i + 1)) ∧
      (2 * i + 2 < l.length → vAt l i ≤ vAt l (2 * i + 2))) ∧
    (minIdx cmpE l i ≠ i →
      (minIdx cmpE l i = 2 * i + 1 ∨ minIdx cmpE l i = 2 * i + 2) ∧
      vAt l (minIdx cmpE l i) < vAt l i ∧
      (2 * i + 1 < l.length → vAt l (minIdx cmpE l i) ≤ vAt l (2 * i + 1)) ∧
      (2 * i + 2 < l.length → vAt l (minIdx cmpE l i) ≤ vAt l (2 * i + 2))) := by
  simp only [minIdx, cmpE_neg_iff, vAt]
  split_ifs with h1 h2 h3 <;>
    exact ⟨fun hmi => by constructor <;> intro hlen <;> omega,
      fun hmi => by
        refine ⟨by omega, by omega, fun hlen => by omega, fun hlen => by omega⟩⟩

theorem root_min {l : List ExpEntry} (h : IsMinHeap l) :
    ∀ j, j < l.length → vAt l 0 ≤ vAt l j := by
  intro j
  induction j using Nat.strong_induction_on with
  | _ j ih =>
    intro hj
    rcases Nat.eq_zero_or_pos j with h0 | hpos
    · subst h0; exact le_refl _
    · have hp : (j - 1) / 2 < j := by omega
      have h1 := h j hpos hj
      have h2 := ih ((j - 1) / 2) hp (by omega)
      omega

/-- The state of the array during `_heap_sift_down`: every parent-child
pair is ordered except possibly the pairs whose parent is the current
index `i`, and the grandparent of those pairs is already at most the
children of `i`. -/
def AlmostHeap (l : List ExpEntry) (i : Nat) : Prop :=
  (∀ j, 0 < j → j < l.length → (j - 1) / 2 ≠ i → vAt l ((j - 1) / 2) ≤ vAt l j) ∧
  (0 < i → ∀ j, j < l.length → (j - 1) / 2 = i → vAt l ((i - 1) / 2) ≤ vAt l j)

theorem siftDown_isMinHeap : ∀ (l : List ExpEntry) (i : Nat),
    AlmostHeap l i → IsMinHeap (siftDown cmpE l i) := by
  intro l i
  induction l, i using siftDown.induct cmpE with
  | case1 l i hmi =>
    intro hAH
    rw [siftDown, dif_pos hmi]
    intro j hj hjlen
    by_cases hpar : (j - 1) / 2 = i
    · rw [hpar]
      have hspec := (minIdx_spec l i).1 hmi
      have hj12 : j = 2 * i + 1 ∨ j = 2 * i + 2 := by omega
      rcases hj12 with hj1 | hj1
      · subst hj1; exact hspec.1 hjlen
      · subst hj1; exact hspec.2 hjlen
    · exact hAH.1 j hj hjlen hpar
  | case2 l i hmi ih =>
    intro hAH
    rw [siftDown, dif_neg hmi]
    apply ih
    obtain ⟨hi, hmilen⟩ := minIdx_lt_length hmi
    obtain ⟨hmi12, hltv, hle1, hle2⟩ := (minIdx_spec l i).2 hmi
    have hmigt : i < minIdx cmpE l i := by omega
    constructor
    · intro j hj hjlen hpar
      rw [length_heapSwap] at hjlen
      rw [vAt_heapSwap hi hmilen, vAt_heapSwap hi hmilen]
      by_cases hjm : j = minIdx cmpE l i
      · -- the swapped-down item at its new position, child of the old
        rw [if_pos hjm]
        have hpari : (j - 1) / 2 = i := by omega
        rw [hpari, if_neg (by omega), if_pos rfl]
        exact le_of_lt hltv
      · rw [if_neg hjm]
        by_cases hpi : (j - 1) / 2 = i
        · -- the other child of the old position
          rw [hpi, if_neg (by omega), if_pos rfl, if_neg (by omega)]
          have : j = 2 * i + 1 ∨ j = 2 * i + 2 := by omega
          rcases this with hj1 | hj1
          · subst hj1; exact hle1 hjlen
          · subst hj1; exact hle2 hjlen
        · by_cases hji : j = i
          · -- the moved-up item against its own parent
            rw [if_neg hpar, if_neg hpi, if_pos hji, hji]
            exact hAH.2 (by omega) (minIdx cmpE l i) hmilen (by omega)
          · -- pairs untouched by the swap
            rw [if_neg hpar, if_neg hpi, if_neg hji]
            exact hAH.1 j hj hjlen hpi
    · intro _ j hjlen hpar
      rw [length_heapSwap] at hjlen
      rw [vAt_heapSwap hi hmilen, vAt_heapSwap hi hmilen]
      have hparmi : (minIdx cmpE l i - 1) / 2 = i := by omega
      rw [hparmi]
      have hjgt : minIdx cmpE l i < j := by omega
      rw [if_neg (by omega), if_pos rfl, if_neg (by omega), if_neg (by omega)]
      have hstep := hAH.1 j (by omega) hjlen (by omega)
      rw [hpar] at hstep
      exact hstep

theorem vAt_cons_pos (a b : ExpEntry) (t : List ExpEntry) {k : Nat} (h : 0 < k) :
    vAt (a :: t) k = vAt (b :: t) k := by
  cases k with
  | zero => exact absurd h (lt_irrefl 0)
  | succ n => simp [vAt]

theorem vAt_dropLast {l : List ExpEntry} {k : Nat} (h : k < l.length - 1) :
    vAt l.dropLast k = vAt l k := by
  unfold vAt
  rw [List.dropLast_eq_take, List.getD_eq_getElem?_getD, List.getD_eq_getElem?_getD,
    List.getElem?_take, if_pos h]

theorem heapPop_spec {l : List ExpEntry} {x : ExpEntry} {rest : List ExpEntry}
    (hpop : heapPop cmpE l = some (x, rest)) :
    (l : Multiset ExpEntry) = x ::ₘ (rest : Multiset ExpEntry) ∧
    rest.length + 1 = l.length ∧
    (IsMinHeap l → IsMinHeap rest) ∧ l.head? = some x := by
  match l with
  | [] => cases hpop
  | y :: t =>
    rw [heapPop] at hpop
    injection hpop with hpop
    obtain ⟨hx, hrest⟩ : y = x ∧ siftDown cmpE (((y :: t).set 0 ((y :: t).getLast (by simp))).dropLast) 0 = rest := by
      constructor
      · exact congrArg Prod.fst hpop
      · exact congrArg Prod.snd hpop
    subst hx
    subst hrest
    have harr : ((y :: t).set 0 ((y :: t).getLast (by simp)))
        = ((y :: t).getLast (by simp)) :: t := rfl
    refine ⟨?_, ?_, ?_, rfl⟩
    · rw [multiset_siftDown, harr]
      cases t with
      | nil => simp
      | cons z t' =>
        have hlast : (y :: z :: t').getLast (by simp) = (z :: t').getLast (by simp) :=
          List.getLast_cons (by simp)
        have hdrop : (((z :: t').getLast (by simp)) :: z :: t').dropLast
            = ((z :: t').getLast (by simp)) :: (z :: t').dropLast := rfl
        rw [hlast, hdrop]
        have hsplit : (z :: t').dropLast ++ [(z :: t').getLast (by simp)] = z :: t' :=
          List.dropLast_append_getLast (by simp)
        calc ((y :: z :: t' : List ExpEntry) : Multiset ExpEntry)
            = y ::ₘ ((z :: t' : List ExpEntry) : Multiset ExpEntry) := by
              rw [← Multiset.cons_coe]
          _ = y ::ₘ (((z :: t').dropLast ++ [(z :: t').getLast (by simp)] : List ExpEntry)
                : Multiset ExpEntry) := by rw [hsplit]
          _ = y ::ₘ ((((z :: t').getLast (by simp)) :: (z :: t').dropLast : List ExpEntry)
                : Multiset ExpEntry) := by
              exact congrArg (y ::ₘ ·)
                (Multiset.coe_eq_coe.mpr (List.perm_append_singleton _ _))
          _ = y ::ₘ (((((z :: t').getLast (by simp)) :: z :: t').dropLast : List ExpEntry)
                : Multiset ExpEntry) := by rw [hdrop]
    · rw [length_siftDown, harr]
      simp
    · intro hheap
      apply siftDown_isMinHeap
      constructor
      · intro j hj hjlen hpar
        rw [harr] at hjlen ⊢
        have hjt : j < t.length := by
          simpa using hjlen
        have hppos : 0 < (j - 1) / 2 := by omega
        rw [vAt_dropLast (by simp; omega), vAt_dropLast (by simp; omega),
          vAt_cons_pos _ y _ hppos, vAt_cons_pos _ y _ hj]
        exact hheap j hj (by simp; omega)
      · intro h0 _ _ _
        exact absurd h0 (lt_irrefl 0)

/-! ### The key space of `handler.h`

`db_entry` holds a key, a typed value and an expiry timestamp in
milliseconds (`-1` for no expiry). The uthash hash table is modelled as
an association list searched by key; `HASH_ADD` appends a new entry,
`HASH_DEL` removes one, and an existing entry is updated in place. -/

/-- A stored value: `VAL_TYPE_STRING`, `VAL_TYPE_LIST` (the singly
linked `RedisList` as the list of its node strings, head first) or
`VAL_TYPE_ZSET` (the AVL root). -/
inductive Val : Type where
  | vstr (s : String) : Val
  | vlist (xs : List String) : Val
  | vzset (t : ZTree) : Val
deriving DecidableEq

/-- A `db_entry` without its key: the value (carrying the type tag) and
`expiry_ms`. -/
structure Ent where
  value : Val
  expiry : Int
deriving DecidableEq

/-- The uthash table `db`, as an association list in insertion order. -/
abbrev Db : Type := List (String × Ent)

/-- `HASH_FIND_STR`: the entry stored under `key`, if any. -/
def dbFind : Db → String → Option Ent
  | [], _ => none
  | (k, e) :: rest, key => if k = key then some e else dbFind rest key

/-- Store `e` under `key`: replace the existing entry in place, or
append a new one as `HASH_ADD_STR` does. -/
def dbUpsert : Db → String → Ent → Db
  | [], key, e => [(key, e)]
  | (k, e0) :: rest, key, e =>
    if k = key then (key, e) :: rest else (k, e0) :: dbUpsert rest key e

/-- `HASH_DEL` of the entry stored under `key`. -/
def dbDelete : Db → String → Db
  | [], _ => []
  | (k, e) :: rest, key => if k = key then rest else (k, e) :: dbDelete rest key

/-! ### Reply encoding (`parser.h` and the handler's reply constants)

C strings of ASCII bytes are modelled as Lean strings; `strlen` is the
character count, which agrees on ASCII data. -/

def REDIS_OK : String := "+OK\r\n"

def NULL_BULK_STRING : String := "$-1\r\n"

def REDIS_WRONGTYPE : String :=
  "-WRONGTYPE Operation against a key holding the wrong kind of value\r\n"

def REDIS_EMPTY_ARRAY : String := "*0\r\n"

/-- `encode_bulk_str`. -/
def encode_bulk_str (s : String) : String :=
  "$" ++ toString s.length ++ "\r\n" ++ s ++ "\r\n"

/-- `encode_integer`. -/
def encode_integer (v : Int) : String := ":" ++ toString v ++ "\r\n"

/-! ### The command handlers

Each handler takes the table (and, where the C reads
`current_time_ms()`, the current time `now`) and returns the new table
together with what it sends on the socket: a `String` reply, or `none`
when the C code returns without sending anything. `strtol` and `strtod`
applied to argument tokens are modelled by parser parameters
`sl : String → Int` and `sd : String → ℚ` (the doubles of `zset.h` are
modelled as rationals throughout this development). -/

/-- `handle_set`: upsert the key as a string value with the given
expiry, push a bookkeeping entry on the expiry heap when an expiry was
given, and reply `+OK`. -/
def handle_set (db : Db) (heap : List ExpEntry) (key value : String) (expiry : Int) :
    Db × List ExpEntry × String :=
  (dbUpsert db key ⟨Val.vstr value, expiry⟩,
   if expiry ≠ -1 then heapPush cmpE heap (expiry, key) else heap,
   REDIS_OK)

/-- `handle_get`: not-found replies a null bulk string; an entry whose
expiry is set and strictly in the past is deleted (passive eviction) and
reported not found; then the type is checked and the string returned. -/
def handle_get (db : Db) (key : String) (now : Int) : Db × String :=
  match dbFind db key with
  | none => (db, NULL_BULK_STRING)
  | some e =>
    if e.expiry ≠ -1 ∧ e.expiry < now then
      (dbDelete db key, NULL_BULK_STRING)
    else
      match e.value with
      | Val.vstr s => (db, encode_bulk_str s)
      | _ => (db, REDIS_WRONGTYPE)

/-- `handle_rpush` on the token list `cmnds`. Fewer than three tokens:
silent return. A fresh key gets a new list entry with no expiry. An
existing key is type-checked first; then, if its expiry is set and
strictly past, the list is re-initialised in place and the expiry
cleared to `-1`. The values are appended and the new length replied. -/
def handle_rpush : Db → List String → Int → Db × Option String
  | db, _ :: key :: v1 :: vs, now =>
      match dbFind db key with
      | none =>
          (dbUpsert db key ⟨Val.vlist (v1 :: vs), -1⟩,
           some (encode_integer ((v1 :: vs).length : Int)))
      | some e =>
          match e.value with
          | Val.vlist xs =>
              if e.expiry ≠ -1 ∧ e.expiry < now then
                (dbUpsert db key ⟨Val.vlist (v1 :: vs), -1⟩,
                 some (encode_integer ((v1 :: vs).length : Int)))
              else
                (dbUpsert db key ⟨Val.vlist (xs ++ v1 :: vs), e.expiry⟩,
                 some (encode_integer ((xs ++ v1 :: vs).length : Int)))
          | _ => (db, some REDIS_WRONGTYPE)
  | db, _, _ => (db, none)

/-- `handle_lrange`: exactly four tokens or silent return; not-found and
passive eviction reply the empty array; then the type check; `stop` is
clamped to the last index, `start ≥ len` or `start > stop` reply the
empty array, and otherwise `count = stop - start + 1` items are emitted
after walking `start` nodes (no walk when `start` is negative, as the C
`for` loop body never runs). When `count` exceeds the items left the C
code would dereference a null node; no claim reaches that region, and
the model truncates there. -/
def handle_lrange (sl : String → Int) : Db → List String → Int → Db × Option String
  | db, [_, key, a2, a3], now =>
      let start := sl a2
      let stop := sl a3
      match dbFind db key with
      | none => (db, some REDIS_EMPTY_ARRAY)
      | some e =>
        if e.expiry ≠ -1 ∧ e.expiry < now then
          (dbDelete db key, some REDIS_EMPTY_ARRAY)
        else
          match e.value with
          | Val.vlist xs =>
            let len : Int := xs.length
            let stop2 := if stop ≥ len then len - 1 else stop
            if start ≥ len ∨ start > stop2 then (db, some REDIS_EMPTY_ARRAY)
            else
              let count := stop2 - start + 1
              let items := (xs.drop start.toNat).take count.toNat
              (db, some ("*" ++ toString count ++ "\r\n" ++
                String.join (items.map encode_bulk_str)))
          | _ => (db, some REDIS_WRONGTYPE)
  | db, _, _ => (db, none)

/-- The score/member pairs of a ZADD argument tail: tokens at positions
2, 4, ... are parsed as scores, each followed by its member. -/
def zaddPairs (sd : String → ℚ) : List String → List (ℚ × String)
  | s :: m :: rest => (sd s, m) :: zaddPairs sd rest
  | _ => []

/-- The ZADD loop: run `zset_add` for each pair in order, summing the
newly-added results into `acc`. -/
def zaddFold : ZTree → Int → List (ℚ × String) → Int × ZTree
  | t, acc, [] => (acc, t)
  | t, acc, (s, m) :: rest => zaddFold (zsetAdd t s m).2 (acc + (zsetAdd t s m).1) rest

/-- The per-pair newly-added flags of the ZADD loop, in order. -/
def zaddFlags : ZTree → List (ℚ × String) → List Int
  | _, [] => []
  | t, (s, m) :: rest => (zsetAdd t s m).1 :: zaddFlags (zsetAdd t s m).2 rest

/-- `handle_zadd`: fewer than four tokens, or an odd tail, is silently
dropped. A fresh key gets a new empty sorted set with no expiry; an
existing key is type-checked (there is no expiry check). The pairs are
added in order and the sum of newly-added results replied. -/
def handle_zadd (db : Db) (sd : String → ℚ) (cmnds : List String) : Db × Option String :=
  if cmnds.length < 4 ∨ (cmnds.length - 2) % 2 ≠ 0 then (db, none)
  else
    match cmnds with
    | _ :: key :: rest =>
      match dbFind db key with
      | none =>
          let r := zaddFold ZTree.nil 0 (zaddPairs sd rest)
          (dbUpsert db key ⟨Val.vzset r.2, -1⟩, some (encode_integer r.1))
      | some e =>
          match e.value with
          | Val.vzset t =>
              let r := zaddFold t 0 (zaddPairs sd rest)
              (dbUpsert db key ⟨Val.vzset r.2, e.expiry⟩, some (encode_integer r.1))
          | _ => (db, some REDIS_WRONGTYPE)
    | _ => (db, none)

/-- `handle_zrange`: exactly four tokens or silent return; not-found
replies the empty array; the type check (there is no expiry check);
negative indices are resolved as `total + index`, a still-negative start
is clamped to 0, and after the emptiness guard `stop` is clamped to
`total - 1`; ranks `start .. stop` are then fetched with
`zset_get_by_rank`, skipping any null result. -/
def handle_zrange (sl : String → Int) : Db → List String → Db × Option String
  | db, [_, key, a2, a3] =>
      match dbFind db key with
      | none => (db, some REDIS_EMPTY_ARRAY)
      | some e =>
        match e.value with
        | Val.vzset t =>
          let total : Int := ZTree.cOf t
          let start1 := if sl a2 < 0 then total + sl a2 else sl a2
          let stop1 := if sl a3 < 0 then total + sl a3 else sl a3
          let start2 := if start1 < 0 then 0 else start1
          if start2 > stop1 ∨ start2 ≥ total then (db, some REDIS_EMPTY_ARRAY)
          else
            let stop2 := if stop1 ≥ total then total - 1 else stop1
            let count := (stop2 - start2 + 1).toNat
            let items := (List.range count).filterMap
              (fun i => ZTree.getByRank t (start2.toNat + i))
            (db, some ("*" ++ toString count ++ "\r\n" ++
              String.join (items.map (fun kv => encode_bulk_str kv.2))))
        | _ => (db, some REDIS_WRONGTYPE)
  | db, _ => (db, none)

/-! ### The active eviction sweep of `main.c`

One pass of the eviction loop at a fixed current time `now`: peek the
heap; stop when it is empty or the minimum is still in the future;
otherwise pop it and look its key up. A missing key, or a live expiry
different from the popped timestamp, marks the popped entry stale: it is
discarded and the key space untouched. Only on exact equality is the
entry deleted. Each iteration pops one entry, so the heap length
decreases and the loop terminates. -/

theorem heapPop_length {l : List ExpEntry} {x : ExpEntry} {rest : List ExpEntry}
    (h : heapPop cmpE l = some (x, rest)) : rest.length + 1 = l.length :=
  (heapPop_spec h).2.1

/-- The heap remainder after popping the root of the nonempty heap
`e :: t`: the last item is moved to the root, the array shrinks, and the
root is sifted down (`heap_pop` returns the peeked root `e` together
with this remainder; it is inlined in the sweep below). -/
def sweepRest (e : ExpEntry) (t : List ExpEntry) : List ExpEntry :=
  siftDown cmpE (((e :: t).set 0 ((e :: t).getLast (by simp))).dropLast) 0

theorem heapPop_cons (e : ExpEntry) (t : List ExpEntry) :
    heapPop cmpE (e :: t) = some (e, sweepRest e t) := rfl

theorem sweepRest_length (e : ExpEntry) (t : List ExpEntry) :
    (sweepRest e t).length = t.length := by
  rw [sweepRest, length_siftDown]
  simp

/-- Every item of the heap remainder was an item of the heap. -/
theorem mem_sweepRest {y e : ExpEntry} {t : List ExpEntry} (hy : y ∈ sweepRest e t) :
    y ∈ e :: t := by
  have hspec := (heapPop_spec (heapPop_cons e t)).1
  have hm : y ∈ ((e :: t : List ExpEntry) : Multiset ExpEntry) := by
    rw [hspec]
    exact Multiset.mem_cons_of_mem (Multiset.mem_coe.mpr hy)
  exact Multiset.mem_coe.mp hm

def sweepLoop : Db → List ExpEntry → Int → Db × List ExpEntry
  | db, [], _ => (db, [])
  | db, e :: t, now =>
    if e.1 > now then (db, e :: t)
    else
      match dbFind db e.2 with
      | none => sweepLoop db (sweepRest e t) now
      | some ent =>
        if ent.expiry ≠ e.1 then sweepLoop db (sweepRest e t) now
        else sweepLoop (dbDelete db e.2) (sweepRest e t) now
termination_by db heap now => heap.length
decreasing_by
  all_goals
    simp only [sweepRest_length, List.length_cons]
    omega

theorem sweepLoop_nil (db : Db) (now : Int) : sweepLoop db [] now = (db, []) := by
  rw [sweepLoop]

theorem sweepLoop_cons (db : Db) (e : ExpEntry) (t : List ExpEntry) (now : Int) :
    sweepLoop db (e :: t) now =
      if e.1 > now then (db, e :: t)
      else
        match dbFind db e.2 with
        | none => sweepLoop db (sweepRest e t) now
        | some ent =>
          if ent.expiry ≠ e.1 then sweepLoop db (sweepRest e t) now
          else sweepLoop (dbDelete db e.2) (sweepRest e t) now := by
  rw [sweepLoop]

theorem dbFind_dbUpsert_self (db : Db) (key : String) (e : Ent) :
    dbFind (dbUpsert db key e) key = some e := by
  induction db with
  | nil => simp [dbUpsert, dbFind]
  | cons p rest ih =>
    obtain ⟨k, e0⟩ := p
    by_cases hk : k = key
    · simp [dbUpsert, dbFind, hk]
    · simp [dbUpsert, dbFind, hk, ih]

theorem dbFind_dbDelete_ne (db : Db) (k1 k2 : String) (h : k1 ≠ k2) :
    dbFind (dbDelete db k1) k2 = dbFind db k2 := by
  induction db with
  | nil => simp [dbDelete, dbFind]
  | cons p rest ih =>
    obtain ⟨k, e0⟩ := p
    by_cases hk : k = k1
    · subst hk
      simp [dbDelete, dbFind, h]
    · by_cases hk2 : k = k2
      · subst hk2
        simp [dbDelete, dbFind, hk, Ne.symm h]
      · simp [dbDelete, dbFind, hk, hk2, ih]

/-- A key whose live expiry is still in the future survives the sweep
untouched: every popped bookkeeping entry has a timestamp at most `now`,
so it is either stale for this key or belongs to another key. -/
theorem sweepLoop_keeps_future :
    ∀ (n : Nat) (db : Db) (heap : List ExpEntry) (now : Int) (k : String) (ent : Ent),
      heap.length ≤ n → dbFind db k = some ent → now < ent.expiry →
      dbFind (sweepLoop db heap now).1 k = some ent := by
  intro n
  induction n with
  | zero =>
    intro db heap now k ent hlen hfind _
    match heap with
    | [] => rw [sweepLoop_nil]; exact hfind
  | succ m ih =>
    intro db heap now k ent hlen hfind hfut
    match heap with
    | [] => rw [sweepLoop_nil]; exact hfind
    | e :: t =>
      rw [sweepLoop_cons]
      by_cases hgt : e.1 > now
      · rw [if_pos hgt]
        exact hfind
      · rw [if_neg hgt]
        have hrl : (sweepRest e t).length ≤ m := by
          rw [sweepRest_length]
          simp at hlen
          omega
        cases hdb : dbFind db e.2 with
        | none => exact ih db _ now k ent hrl hfind hfut
        | some ent0 =>
          show dbFind (if ent0.expiry ≠ e.1 then sweepLoop db (sweepRest e t) now
              else sweepLoop (dbDelete db e.2) (sweepRest e t) now).1 k = some ent
          by_cases hne : ent0.expiry ≠ e.1
          · rw [if_pos hne]
            exact ih db _ now k ent hrl hfind hfut
          · rw [if_neg hne]
            push_neg at hne
            by_cases hk : e.2 = k
            · exfalso
              rw [hk, hfind] at hdb
              injection hdb with hdb
              subst hdb
              omega
            · exact ih (dbDelete db e.2) _ now k ent hrl
                (by rw [dbFind_dbDelete_ne db e.2 k hk]; exact hfind) hfut

/-- A key none of whose heap entries carries exactly its live expiry
timestamp survives the sweep untouched: deletion happens only on exact
timestamp equality with a popped entry. -/
theorem sweepLoop_keeps_unmatched :
    ∀ (n : Nat) (db : Db) (heap : List ExpEntry) (now : Int) (k : String) (ent : Ent),
      heap.length ≤ n → dbFind db k = some ent →
      (∀ x ∈ heap, x.2 = k → x.1 ≠ ent.expiry) →
      dbFind (sweepLoop db heap now).1 k = some ent := by
  intro n
  induction n with
  | zero =>
    intro db heap now k ent hlen hfind _
    match heap with
    | [] => rw [sweepLoop_nil]; exact hfind
  | succ m ih =>
    intro db heap now k ent hlen hfind hno
    match heap with
    | [] => rw [sweepLoop_nil]; exact hfind
    | e :: t =>
      rw [sweepLoop_cons]
      by_cases hgt : e.1 > now
      · rw [if_pos hgt]
        exact hfind
      · rw [if_neg hgt]
        have hrl : (sweepRest e t).length ≤ m := by
          rw [sweepRest_length]
          simp at hlen
          omega
        have hno' : ∀ x ∈ sweepRest e t, x.2 = k → x.1 ≠ ent.expiry :=
          fun x hx => hno x (mem_sweepRest hx)
        cases hdb : dbFind db e.2 with
        | none => exact ih db _ now k ent hrl hfind hno'
        | some ent0 =>
          show dbFind (if ent0.expiry ≠ e.1 then sweepLoop db (sweepRest e t) now
              else sweepLoop (dbDelete db e.2) (sweepRest e t) now).1 k = some ent
          by_cases hne : ent0.expiry ≠ e.1
          · rw [if_pos hne]
            exact ih db _ now k ent hrl hfind hno'
          · rw [if_neg hne]
            push_neg at hne
            by_cases hk : e.2 = k
            · exfalso
              rw [hk, hfind] at hdb
              injection hdb with hdb
              subst hdb
              exact hno e (List.mem_cons_self e t) hk hne.symm
            · exact ih (dbDelete db e.2) _ now k ent hrl
                (by rw [dbFind_dbDelete_ne db e.2 k hk]; exact hfind) hno'

/-! ### The claims -/

/-- C1: the active eviction sweep stops when the heap is empty or its
minimum timestamp is in the future; a key whose live expiry is in the
future, or whose live expiry matches no bookkeeping entry of the heap
exactly, is never deleted by the sweep; consequently after
`SET k v2 PX t1` then `SET k v3 PX t2` with `t2 ≠ t1`, a sweep at any
time before `t2` leaves `k` bound to `v3` with expiry `t2` — the
orphaned `t1` bookkeeping entry never evicts `k`. -/
theorem C1_sweep_exact_match_only :
    (∀ (db : Db) (now : Int), sweepLoop db [] now = (db, [])) ∧
    (∀ (db : Db) (heap : List ExpEntry) (e : ExpEntry) (now : Int),
        heapPeek heap = some e → now < e.1 → sweepLoop db heap now = (db, heap)) ∧
    (∀ (db : Db) (heap : List ExpEntry) (now : Int) (k : String) (ent : Ent),
        dbFind db k = some ent → now < ent.expiry →
        dbFind (sweepLoop db heap now).1 k = some ent) ∧
    (∀ (db : Db) (heap : List ExpEntry) (now : Int) (k : String) (ent : Ent),
        dbFind db k = some ent → (∀ x ∈ heap, x.2 = k → x.1 ≠ ent.expiry) →
        dbFind (sweepLoop db heap now).1 k = some ent) ∧
    (∀ (db0 : Db) (h0 : List ExpEntry) (k v2 v3 : String) (t1 t2 now : Int),
        t1 ≠ -1 → t2 ≠ -1 → t1 ≠ t2 → now < t2 →
        dbFind (sweepLoop
            (handle_set (handle_set db0 h0 k v2 t1).1 (handle_set db0 h0 k v2 t1).2.1 k v3 t2).1
            (handle_set (handle_set db0 h0 k v2 t1).1 (handle_set db0 h0 k v2 t1).2.1 k v3 t2).2.1
            now).1 k = some ⟨Val.vstr v3, t2⟩) := by
  refine ⟨fun db now => sweepLoop_nil db now, ?_, ?_, ?_, ?_⟩
  · intro db heap e now hpk hfut
    match heap with
    | [] => cases hpk
    | y :: t =>
      rw [heapPeek] at hpk
      injection hpk with hpk
      subst hpk
      rw [sweepLoop_cons, if_pos (by omega)]
  · intro db heap now k ent hfind hfut
    exact sweepLoop_keeps_future heap.length db heap now k ent (le_refl _) hfind hfut
  · intro db heap now k ent hfind hno
    exact sweepLoop_keeps_unmatched heap.length db heap now k ent (le_refl _) hfind hno
  · intro db0 h0 k v2 v3 t1 t2 now _ _ _ hlt
    have hfind : dbFind (handle_set (handle_set db0 h0 k v2 t1).1
        (handle_set db0 h0 k v2 t1).2.1 k v3 t2).1 k = some ⟨Val.vstr v3, t2⟩ :=
      dbFind_dbUpsert_self _ k _
    exact sweepLoop_keeps_future _ _ _ now k ⟨Val.vstr v3, t2⟩ (le_refl _) hfind hlt

theorem C1_sweep_exact_match_only_witness :
    (5 : Int) ≠ -1 ∧ (10 : Int) ≠ -1 ∧ (5 : Int) ≠ 10 ∧ (7 : Int) < 10 ∧
    dbFind (sweepLoop
        (handle_set (handle_set [] [] "k" "a" 5).1 (handle_set [] [] "k" "a" 5).2.1 "k" "b" 10).1
        (handle_set (handle_set [] [] "k" "a" 5).1 (handle_set [] [] "k" "a" 5).2.1 "k" "b" 10).2.1
        7).1 "k" = some ⟨Val.vstr "b", 10⟩ :=
  ⟨by decide, by decide, by decide, by decide,
    C1_sweep_exact_match_only.2.2.2.2 [] [] "k" "a" "b" 5 10 7
      (by decide) (by decide) (by decide) (by decide)⟩

/-- C4 counterexample: at the exact instant `now = expiry` a GET does
not evict — the entry is kept and its value served, not the null bulk
reply the claim requires. -/
theorem C4_counterexample :
    handle_get [("k", ⟨Val.vstr "v", 100⟩)] "k" 100
        = ([("k", ⟨Val.vstr "v", 100⟩)], encode_bulk_str "v") ∧
    encode_bulk_str "v" ≠ NULL_BULK_STRING := by
  constructor
  · rfl
  · decide

/-- C4 (amended): GET evicts an entry precisely when its expiry is set
and strictly before the current time; at `now = expiry` the key is not
deleted. -/
theorem C4_amended_strict_eviction :
    ∀ (db : Db) (k : String) (now : Int) (ent : Ent),
      dbFind db k = some ent → ent.expiry ≠ -1 →
      ((ent.expiry < now → handle_get db k now = (dbDelete db k, NULL_BULK_STRING)) ∧
       (now ≤ ent.expiry → (handle_get db k now).1 = db)) := by
  intro db k now ent hfind hne
  obtain ⟨v, ex⟩ := ent
  constructor
  · intro hlt
    simp only [handle_get, hfind]
    rw [if_pos ⟨hne, hlt⟩]
  · intro hle
    simp only [handle_get, hfind]
    rw [if_neg (fun h => absurd h.2 (not_lt.mpr hle))]
    cases v <;> rfl

theorem C4_amended_strict_eviction_witness :
    dbFind [("k", (⟨Val.vstr "v", 100⟩ : Ent))] "k" = some ⟨Val.vstr "v", 100⟩ ∧
    (100 : Int) ≠ -1 ∧ (100 : Int) < 150 ∧
    handle_get [("k", (⟨Val.vstr "v", 100⟩ : Ent))] "k" 150
      = (dbDelete [("k", (⟨Val.vstr "v", 100⟩ : Ent))] "k", NULL_BULK_STRING) :=
  ⟨rfl, by decide, by decide,
    (C4_amended_strict_eviction [("k", ⟨Val.vstr "v", 100⟩)] "k" 150
      ⟨Val.vstr "v", 100⟩ rfl (by decide)).1 (by decide)⟩

/-- C8: a SET with no TTL followed by a GET of the same key returns the
stored value as a bulk string, leaving the key space as the SET left
it. -/
theorem C8_get_after_set (db : Db) (heap : List ExpEntry) (k v : String) (now : Int) :
    handle_get (handle_set db heap k v (-1)).1 k now
      = ((handle_set db heap k v (-1)).1, encode_bulk_str v) := by
  have hfind : dbFind (handle_set db heap k v (-1)).1 k = some ⟨Val.vstr v, -1⟩ :=
    dbFind_dbUpsert_self db k _
  simp only [handle_get, hfind]
  rw [if_neg (fun h => h.1 rfl)]

/-- C10: a ZADD with fewer than four tokens, or whose score/member
tokens do not pair up, sends nothing and leaves the key space
unchanged. -/
theorem C10_zadd_malformed_silent (db : Db) (sd : String → ℚ) (cmnds : List String)
    (h : cmnds.length < 4 ∨ (cmnds.length - 2) % 2 ≠ 0) :
    handle_zadd db sd cmnds = (db, none) := by
  simp only [handle_zadd, if_pos h]

theorem C10_zadd_malformed_silent_witness :
    ((["zadd", "k", "1"] : List String).length < 4 ∨
      (((["zadd", "k", "1"] : List String).length - 2) % 2 ≠ 0)) ∧
    handle_zadd [] (fun _ => 1) ["zadd", "k", "1"] = ([], none) :=
  ⟨by decide, C10_zadd_malformed_silent [] (fun _ => 1) ["zadd", "k", "1"] (by decide)⟩

/-- C2 counterexample: RPUSH on a key holding a string whose expiry is
already past replies WRONGTYPE and keeps the stale entry — the expired
key is not treated as absent — whereas on the truly absent key the same
command creates a fresh list; so passive eviction is not applied
identically at the start of every accessor. -/
theorem C2_counterexample :
    handle_rpush [("k", ⟨Val.vstr "v", 10⟩)] ["rpush", "k", "x"] 50
        = ([("k", ⟨Val.vstr "v", 10⟩)], some REDIS_WRONGTYPE) ∧
    handle_rpush (dbDelete [("k", ⟨Val.vstr "v", 10⟩)] "k") ["rpush", "k", "x"] 50
        = ([("k", ⟨Val.vlist ["x"], -1⟩)], some (encode_integer 1)) := by
  constructor
  · rfl
  · rfl

/-- C2 (amended): passive eviction is not uniform across the accessors.
GET and LRANGE delete a strictly-past entry before their type check;
RPUSH checks the type first and, on an expired list, re-initialises the
entry in place with its expiry cleared instead of deleting it; ZADD
performs no expiry check at all, updating the stored tree and keeping
the stored expiry; ZRANGE never touches the key space. -/
theorem C2_amended_nonuniform_eviction :
    (∀ (db : Db) (k : String) (now : Int) (ent : Ent),
        dbFind db k = some ent → ent.expiry ≠ -1 → ent.expiry < now →
        handle_get db k now = (dbDelete db k, NULL_BULK_STRING)) ∧
    (∀ (db : Db) (sl : String → Int) (k a2 a3 : String) (now : Int) (ent : Ent),
        dbFind db k = some ent → ent.expiry ≠ -1 → ent.expiry < now →
        handle_lrange sl db ["lrange", k, a2, a3] now
          = (dbDelete db k, some REDIS_EMPTY_ARRAY)) ∧
    (∀ (db : Db) (k v1 : String) (vs : List String) (now : Int) (ent : Ent),
        dbFind db k = some ent → (∀ xs, ent.value ≠ Val.vlist xs) →
        handle_rpush db ("rpush" :: k :: v1 :: vs) now = (db, some REDIS_WRONGTYPE)) ∧
    (∀ (db : Db) (k v1 : String) (vs : List String) (now : Int) (xs : List String) (ex : Int),
        dbFind db k = some ⟨Val.vlist xs, ex⟩ → ex ≠ -1 → ex < now →
        handle_rpush db ("rpush" :: k :: v1 :: vs) now
          = (dbUpsert db k ⟨Val.vlist (v1 :: vs), -1⟩,
             some (encode_integer ((v1 :: vs).length : Int)))) ∧
    (∀ (db : Db) (sd : String → ℚ) (k : String) (rest : List String) (t : ZTree) (ex : Int),
        dbFind db k = some ⟨Val.vzset t, ex⟩ →
        ¬(("zadd" :: k :: rest).length < 4 ∨ ((("zadd" :: k :: rest).length - 2) % 2 ≠ 0)) →
        handle_zadd db sd ("zadd" :: k :: rest)
          = (dbUpsert db k ⟨Val.vzset (zaddFold t 0 (zaddPairs sd rest)).2, ex⟩,
             some (encode_integer (zaddFold t 0 (zaddPairs sd rest)).1))) ∧
    (∀ (db : Db) (sl : String → Int) (k a2 a3 : String) (t : ZTree) (ex : Int),
        dbFind db k = some ⟨Val.vzset t, ex⟩ →
        (handle_zrange sl db ["zrange", k, a2, a3]).1 = db) := by
  refine ⟨?_, ?_, ?_, ?_, ?_, ?_⟩
  · intro db k now ent hfind hne hlt
    simp only [handle_get, hfind]
    rw [if_pos ⟨hne, hlt⟩]
  · intro db sl k a2 a3 now ent hfind hne hlt
    simp only [handle_lrange, hfind]
    rw [if_pos ⟨hne, hlt⟩]
  · intro db k v1 vs now ent hfind hnv
    simp only [handle_rpush, hfind]
  · intro db k v1 vs now xs ex hfind hne hlt
    simp only [handle_rpush, hfind]
    rw [if_pos ⟨hne, hlt⟩]
  · intro db sd k rest t ex hfind harity
    simp only [handle_zadd]
    rw [if_neg harity]
    simp only [hfind]
  · intro db sl k a2 a3 t ex hfind
    simp only [handle_zrange, hfind]
    repeat' split
    all_goals rfl

theorem C2_amended_nonuniform_eviction_witness :
    dbFind [("k", (⟨Val.vlist ["a"], 10⟩ : Ent))] "k" = some ⟨Val.vlist ["a"], 10⟩ ∧
    (10 : Int) ≠ -1 ∧ (10 : Int) < 50 ∧
    handle_rpush [("k", (⟨Val.vlist ["a"], 10⟩ : Ent))] ["rpush", "k", "x"] 50
      = (dbUpsert [("k", (⟨Val.vlist ["a"], 10⟩ : Ent))] "k" ⟨Val.vlist ["x"], -1⟩,
         some (encode_integer ((["x"] : List String).length : Int))) :=
  ⟨rfl, by decide, by decide,
    C2_amended_nonuniform_eviction.2.2.2.1 [("k", ⟨Val.vlist ["a"], 10⟩)] "k" "x" [] 50
      ["a"] 10 rfl (by decide) (by decide)⟩

/-- C3 counterexample: after `RPUSH k a b c` on a fresh key,
`LRANGE k 0 -1` replies the empty array, not the three-element array the
claim requires: the handler never resolves negative indices, so
`start = 0 > stop = -1`. -/
theorem C3_counterexample :
    (handle_lrange (fun s => if s = "-1" then (-1 : Int) else 0)
        (handle_rpush [] ["rpush", "k", "a", "b", "c"] 0).1
        ["lrange", "k", "0", "-1"] 0).2 = some REDIS_EMPTY_ARRAY ∧
    REDIS_EMPTY_ARRAY
      ≠ "*3\r\n" ++ encode_bulk_str "a" ++ encode_bulk_str "b" ++ encode_bulk_str "c" := by
  constructor
  · rfl
  · decide

/-- C3 (amended): LRANGE does not resolve negative indices. On a live
list key, `LRANGE k 0 -1` replies the empty array (`start > stop`), and
the full list is returned only by naming the bounds, `LRANGE k 0 stop`
with `stop ≥ len - 1`. -/
theorem C3_amended_lrange_no_negative_resolution :
    ∀ (db : Db) (sl : String → Int) (k a2 a3 : String) (xs : List String) (ex now : Int),
      dbFind db k = some ⟨Val.vlist xs, ex⟩ → ¬(ex ≠ -1 ∧ ex < now) →
      ((sl a2 = 0 → sl a3 = -1 →
          handle_lrange sl db ["lrange", k, a2, a3] now = (db, some REDIS_EMPTY_ARRAY)) ∧
       (sl a2 = 0 → (xs.length : Int) - 1 ≤ sl a3 → xs ≠ [] →
          handle_lrange sl db ["lrange", k, a2, a3] now
            = (db, some ("*" ++ toString ((xs.length : Int) - 1 - 0 + 1) ++ "\r\n" ++
                String.join (xs.map encode_bulk_str))))) := by
  intro db sl k a2 a3 xs ex now hfind hnex
  constructor
  · intro h2 h3
    simp only [handle_lrange, hfind, h2, h3]
    rw [if_neg hnex]
    rw [if_neg (by omega : ¬((-1 : Int) ≥ (xs.length : Int)))]
    rw [if_pos (Or.inr (by omega : (0 : Int) > -1))]
  · intro h2 h3 hxs
    have hlen : 0 < xs.length := List.length_pos.mpr hxs
    simp only [handle_lrange, hfind, h2]
    rw [if_neg hnex]
    have hstop2 : (if sl a3 ≥ (xs.length : Int) then (xs.length : Int) - 1 else sl a3)
        = (xs.length : Int) - 1 := by
      by_cases hc : sl a3 ≥ (xs.length : Int)
      · rw [if_pos hc]
      · rw [if_neg hc]
        omega
    rw [hstop2]
    rw [if_neg (by omega : ¬((0 : Int) ≥ (xs.length : Int) ∨ (0 : Int) > (xs.length : Int) - 1))]
    have htoNat : ((xs.length : Int) - 1 - 0 + 1).toNat = xs.length := by omega
    rw [htoNat]
    have hdrop : ((0 : Int)).toNat = 0 := rfl
    rw [hdrop, List.drop_zero, List.take_length]

theorem C3_amended_witness :
    dbFind [("k", (⟨Val.vlist ["a", "b", "c"], -1⟩ : Ent))] "k"
        = some ⟨Val.vlist ["a", "b", "c"], -1⟩ ∧
    ¬((-1 : Int) ≠ -1 ∧ (-1 : Int) < 0) ∧
    handle_lrange (fun s => if s = "-1" then (-1 : Int) else if s = "5" then 5 else 0)
        [("k", (⟨Val.vlist ["a", "b", "c"], -1⟩ : Ent))] ["lrange", "k", "0", "-1"] 0
      = ([("k", (⟨Val.vlist ["a", "b", "c"], -1⟩ : Ent))], some REDIS_EMPTY_ARRAY) ∧
    handle_lrange (fun s => if s = "-1" then (-1 : Int) else if s = "5" then 5 else 0)
        [("k", (⟨Val.vlist ["a", "b", "c"], -1⟩ : Ent))] ["lrange", "k", "0", "5"] 0
      = ([("k", (⟨Val.vlist ["a", "b", "c"], -1⟩ : Ent))],
         some ("*" ++ toString (((["a", "b", "c"] : List String).length : Int) - 1 - 0 + 1)
           ++ "\r\n" ++ String.join ((["a", "b", "c"] : List String).map encode_bulk_str))) :=
  ⟨rfl, by decide, by
    exact (C3_amended_lrange_no_negative_resolution
      [("k", ⟨Val.vlist ["a", "b", "c"], -1⟩)] _ "k" "0" "-1" ["a", "b", "c"] (-1) 0
      rfl (by decide)).1 (by decide) (by decide), by
    exact (C3_amended_lrange_no_negative_resolution
      [("k", ⟨Val.vlist ["a", "b", "c"], -1⟩)] _ "k" "0" "5" ["a", "b", "c"] (-1) 0
      rfl (by decide)).2 (by decide) (by decide) (by decide)⟩

/-- C9: on an existing, non-expired key of the wrong type, each of GET,
RPUSH, LRANGE, ZADD and ZRANGE replies the WRONGTYPE error and returns
the key space unchanged. -/
theorem C9_wrongtype_unchanged :
    (∀ (db : Db) (k : String) (now : Int) (ent : Ent),
        dbFind db k = some ent → ¬(ent.expiry ≠ -1 ∧ ent.expiry < now) →
        (∀ s, ent.value ≠ Val.vstr s) →
        handle_get db k now = (db, REDIS_WRONGTYPE)) ∧
    (∀ (db : Db) (k v1 : String) (vs : List String) (now : Int) (ent : Ent),
        dbFind db k = some ent → ¬(ent.expiry ≠ -1 ∧ ent.expiry < now) →
        (∀ xs, ent.value ≠ Val.vlist xs) →
        handle_rpush db ("rpush" :: k :: v1 :: vs) now = (db, some REDIS_WRONGTYPE)) ∧
    (∀ (db : Db) (sl : String → Int) (k a2 a3 : String) (now : Int) (ent : Ent),
        dbFind db k = some ent → ¬(ent.expiry ≠ -1 ∧ ent.expiry < now) →
        (∀ xs, ent.value ≠ Val.vlist xs) →
        handle_lrange sl db ["lrange", k, a2, a3] now = (db, some REDIS_WRONGTYPE)) ∧
    (∀ (db : Db) (sd : String → ℚ) (k : String) (rest : List String) (ent : Ent),
        dbFind db k = some ent → ¬(ent.expiry ≠ -1) →
        ¬(("zadd" :: k :: rest).length < 4 ∨ ((("zadd" :: k :: rest).length - 2) % 2 ≠ 0)) →
        (∀ t, ent.value ≠ Val.vzset t) →
        handle_zadd db sd ("zadd" :: k :: rest) = (db, some REDIS_WRONGTYPE)) ∧
    (∀ (db : Db) (sl : String → Int) (k a2 a3 : String) (ent : Ent),
        dbFind db k = some ent → ¬(ent.expiry ≠ -1) →
        (∀ t, ent.value ≠ Val.vzset t) →
        handle_zrange sl db ["zrange", k, a2, a3] = (db, some REDIS_WRONGTYPE)) := by
  refine ⟨?_, ?_, ?_, ?_, ?_⟩
  · intro db k now ent hfind hnex hnv
    simp only [handle_get, hfind]
    rw [if_neg hnex]
  · intro db k v1 vs now ent hfind _ hnv
    simp only [handle_rpush, hfind]
  · intro db sl k a2 a3 now ent hfind hnex hnv
    simp only [handle_lrange, hfind]
    rw [if_neg hnex]
  · intro db sd k rest ent hfind _ harity hnv
    simp only [handle_zadd, hfind]
    rw [if_neg harity]
  · intro db sl k a2 a3 ent hfind _ hnv
    simp only [handle_zrange, hfind]

theorem C9_wrongtype_unchanged_witness :
    handle_get [("k", (⟨Val.vlist ["a"], -1⟩ : Ent))] "k" 0 = ([("k", ⟨Val.vlist ["a"], -1⟩)], REDIS_WRONGTYPE) ∧
    handle_rpush [("s", (⟨Val.vstr "v", -1⟩ : Ent))] ["rpush", "s", "x"] 0
      = ([("s", ⟨Val.vstr "v", -1⟩)], some REDIS_WRONGTYPE) ∧
    handle_lrange (fun _ => 0) [("s", (⟨Val.vstr "v", -1⟩ : Ent))] ["lrange", "s", "0", "1"] 0
      = ([("s", ⟨Val.vstr "v", -1⟩)], some REDIS_WRONGTYPE) ∧
    handle_zadd [("s", (⟨Val.vstr "v", -1⟩ : Ent))] (fun _ => 1) ["zadd", "s", "1", "m"]
      = ([("s", ⟨Val.vstr "v", -1⟩)], some REDIS_WRONGTYPE) ∧
    handle_zrange (fun _ => 0) [("s", (⟨Val.vstr "v", -1⟩ : Ent))] ["zrange", "s", "0", "1"]
      = ([("s", ⟨Val.vstr "v", -1⟩)], some REDIS_WRONGTYPE) :=
  ⟨C9_wrongtype_unchanged.1 _ "k" 0 ⟨Val.vlist ["a"], -1⟩ rfl (by decide)
      (fun s h => Val.noConfusion h),
   C9_wrongtype_unchanged.2.1 _ "s" "x" [] 0 ⟨Val.vstr "v", -1⟩ rfl (by decide)
      (fun xs h => Val.noConfusion h),
   C9_wrongtype_unchanged.2.2.1 _ _ "s" "0" "1" 0 ⟨Val.vstr "v", -1⟩ rfl (by decide)
      (fun xs h => Val.noConfusion h),
   C9_wrongtype_unchanged.2.2.2.1 _ _ "s" ["1", "m"] ⟨Val.vstr "v", -1⟩ rfl (by decide)
      (by decide) (fun t h => Val.noConfusion h),
   C9_wrongtype_unchanged.2.2.2.2 _ _ "s" "0" "1" ⟨Val.vstr "v", -1⟩ rfl (by decide)
      (fun t h => Val.noConfusion h)⟩

/-- C5: every sorted-set tree reachable by any sequence of `zset_add`
and `zset_remove` operations from the empty set is AVL-balanced with
correct order-statistics counts: at every node the children's heights
differ by at most one and the stored count is one more than the sum of
the children's counts. -/
theorem C5_reachable_balance_count (ops : List ZOp) :
    ZTree.balCountOk (runOps ops) = true :=
  ZTree.balCountOk_of_WF (Inv_runOps ops).1

theorem zaddFold_fst : ∀ (ps : List (ℚ × String)) (t : ZTree) (a : Int),
    (zaddFold t a ps).1 = a + (zaddFlags t ps).sum := by
  intro ps
  induction ps with
  | nil =>
    intro t a
    simp [zaddFold, zaddFlags]
  | cons p rest ih =>
    intro t a
    obtain ⟨s, m⟩ := p
    simp only [zaddFold, zaddFlags, List.sum_cons]
    rw [ih]
    ring

/-- Concrete rational scores used by witnesses, in lowest terms so that
kernel evaluation never normalises. -/
def qOne : ℚ := ⟨1, 1, by decide, by decide⟩

def qTwo : ℚ := ⟨2, 1, by decide, by decide⟩

def qThreeHalves : ℚ := ⟨3, 2, by decide, by decide⟩

/-- C6: `zset_add` of `(score, member)`: an existing member with equal
score is a no-op reporting 0; an existing member with a different score
is removed and re-inserted at the new score, keeping the member count,
reporting 0; an absent member is inserted, reporting 1; and the ZADD
reply is the integer sum of the per-pair newly-added results. -/
theorem C6_zadd_update_semantics :
    (∀ (t : ZTree) (s : ℚ) (m : String), ZTree.Inv t →
      (((s, m) ∈ ZTree.keysM t → zsetAdd t s m = (0, t)) ∧
       (∀ sc, (sc, m) ∈ ZTree.keysM t → sc ≠ s →
          (zsetAdd t s m).1 = 0 ∧
          ZTree.keysM (zsetAdd t s m).2 = (s, m) ::ₘ (ZTree.keysM t).erase (sc, m) ∧
          Multiset.card (ZTree.keysM (zsetAdd t s m).2)
            = Multiset.card (ZTree.keysM t)) ∧
       ((∀ sc : ℚ, (sc, m) ∉ ZTree.keysM t) →
          (zsetAdd t s m).1 = 1 ∧
          ZTree.keysM (zsetAdd t s m).2 = (s, m) ::ₘ ZTree.keysM t))) ∧
    (∀ (t : ZTree) (a : Int) (ps : List (ℚ × String)),
        (zaddFold t a ps).1 = a + (zaddFlags t ps).sum) ∧
    (∀ (db : Db) (sd : String → ℚ) (k : String) (rest : List String) (t : ZTree) (ex : Int),
        dbFind db k = some ⟨Val.vzset t, ex⟩ →
        ¬(("zadd" :: k :: rest).length < 4 ∨ ((("zadd" :: k :: rest).length - 2) % 2 ≠ 0)) →
        handle_zadd db sd ("zadd" :: k :: rest)
          = (dbUpsert db k ⟨Val.vzset (zaddFold t 0 (zaddPairs sd rest)).2, ex⟩,
             some (encode_integer ((zaddFlags t (zaddPairs sd rest)).sum)))) := by
  refine ⟨?_, fun t a ps => zaddFold_fst ps t a, ?_⟩
  · intro t s m hinv
    obtain ⟨_, h2, h3, h4⟩ := ZTree.zsetAdd_cases t s m hinv
    refine ⟨h2, ?_, h4⟩
    intro sc hmem hne
    obtain ⟨f1, f2⟩ := h3 sc hmem hne
    refine ⟨f1, f2, ?_⟩
    rw [f2, Multiset.card_cons, Multiset.card_erase_of_mem hmem]
    have hpos : 0 < Multiset.card (ZTree.keysM t) :=
      Multiset.card_pos_iff_exists_mem.mpr ⟨(sc, m), hmem⟩
    exact Nat.succ_pred_eq_of_pos hpos
  · intro db sd k rest t ex hfind harity
    simp only [handle_zadd]
    rw [if_neg harity]
    simp only [hfind, zaddFold_fst, zero_add]

theorem C6_zadd_update_semantics_witness :
    ZTree.Inv (ZTree.node ZTree.nil (qOne, "a") ZTree.nil 1 1) ∧
    (qOne, "a") ∈ ZTree.keysM (ZTree.node ZTree.nil (qOne, "a") ZTree.nil 1 1) ∧
    zsetAdd (ZTree.node ZTree.nil (qOne, "a") ZTree.nil 1 1) qOne "a"
      = (0, ZTree.node ZTree.nil (qOne, "a") ZTree.nil 1 1) ∧
    (zaddFold ZTree.nil 5 [(qOne, "m")]).1 = 5 + (zaddFlags ZTree.nil [(qOne, "m")]).sum ∧
    handle_zadd [("k", ⟨Val.vzset (ZTree.node ZTree.nil (qOne, "a") ZTree.nil 1 1), -1⟩)]
        (fun _ => qTwo) ["zadd", "k", "2", "b"]
      = (dbUpsert [("k", ⟨Val.vzset (ZTree.node ZTree.nil (qOne, "a") ZTree.nil 1 1), -1⟩)]
          "k" ⟨Val.vzset (zaddFold (ZTree.node ZTree.nil (qOne, "a") ZTree.nil 1 1) 0
            (zaddPairs (fun _ => qTwo) ["2", "b"])).2, -1⟩,
         some (encode_integer ((zaddFlags (ZTree.node ZTree.nil (qOne, "a") ZTree.nil 1 1)
            (zaddPairs (fun _ => qTwo) ["2", "b"])).sum))) :=
  ⟨⟨by decide, by decide, by decide⟩, by decide,
   (C6_zadd_update_semantics.1 (ZTree.node ZTree.nil (qOne, "a") ZTree.nil 1 1) qOne "a"
      ⟨by decide, by decide, by decide⟩).1 (by decide),
   C6_zadd_update_semantics.2.1 ZTree.nil 5 [(qOne, "m")],
   C6_zadd_update_semantics.2.2 _ (fun _ => qTwo) "k" ["2", "b"]
      (ZTree.node ZTree.nil (qOne, "a") ZTree.nil 1 1) (-1) rfl (by decide)⟩

theorem filterMap_range_getElem {α : Type} (l : List α) (s : Nat) :
    ∀ c, (List.range c).filterMap (fun i => l[s + i]?) = (l.drop s).take c := by
  intro c
  induction c with
  | zero => simp
  | succ n ih =>
    rw [List.range_succ, List.filterMap_append, ih, List.take_succ, List.getElem?_drop]
    congr 1

/-- C7: ZRANGE resolves negative indices as `count + index`, clamps a
still-negative start to 0 and the stop to `count - 1`, replies the empty
array when `start > stop` or `start ≥ count`, and otherwise returns the
members at ranks `start .. stop` in ascending rank order, rank order
being ascending score with ties broken by ascending member order — the
in-order traversal of the tree. -/
theorem C7_zrange_rank_order :
    ∀ (db : Db) (sl : String → Int) (k a2 a3 : String) (t : ZTree) (ex : Int)
      (n start1 stop1 start2 stop2 : Int),
      dbFind db k = some ⟨Val.vzset t, ex⟩ → ZTree.Inv t →
      n = (ZTree.cOf t : Int) →
      start1 = (if sl a2 < 0 then n + sl a2 else sl a2) →
      stop1 = (if sl a3 < 0 then n + sl a3 else sl a3) →
      start2 = (if start1 < 0 then 0 else start1) →
      stop2 = (if stop1 ≥ n then n - 1 else stop1) →
      List.Pairwise kLt (ZTree.inorder t) ∧
      ((ZTree.inorder t).map Prod.snd).length = ZTree.cOf t ∧
      (start2 > stop1 ∨ start2 ≥ n →
        handle_zrange sl db ["zrange", k, a2, a3] = (db, some REDIS_EMPTY_ARRAY)) ∧
      (¬(start2 > stop1 ∨ start2 ≥ n) →
        handle_zrange sl db ["zrange", k, a2, a3]
          = (db, some ("*" ++ toString (stop2 - start2 + 1).toNat ++ "\r\n" ++
              String.join (((((ZTree.inorder t).map Prod.snd).drop start2.toNat).take
                (stop2 - start2 + 1).toNat).map encode_bulk_str)))) := by
  intro db sl k a2 a3 t ex n start1 stop1 start2 stop2 hfind hinv hn h1 h2 h3 h4
  subst hn
  subst h1
  subst h2
  subst h3
  subst h4
  refine ⟨ZTree.pairwise_inorder hinv.2.1, ?_, ?_, ?_⟩
  · rw [List.length_map, ZTree.length_inorder hinv.1]
  · intro hg
    simp only [handle_zrange, hfind]
    rw [if_pos hg]
  · intro hg
    simp only [handle_zrange, hfind]
    rw [if_neg hg]
    simp only [ZTree.getByRank_eq_getElem hinv.1, filterMap_range_getElem,
      List.map_take, List.map_drop, List.map_map, Function.comp_def]

theorem C7_zrange_rank_order_witness :
    dbFind (handle_zadd [] (fun s => if s = "1" then qOne else if s = "2" then qTwo
          else qThreeHalves) ["zadd", "k", "1", "a", "2", "b", "1.5", "c"]).1 "k"
      = some ⟨Val.vzset (zaddFold ZTree.nil 0 (zaddPairs (fun s => if s = "1" then qOne
          else if s = "2" then qTwo else qThreeHalves) ["1", "a", "2", "b", "1.5", "c"])).2, -1⟩ ∧
    handle_zrange (fun s => if s = "-1" then (-1 : Int) else 0)
        (handle_zadd [] (fun s => if s = "1" then qOne else if s = "2" then qTwo
          else qThreeHalves) ["zadd", "k", "1", "a", "2", "b", "1.5", "c"]).1
        ["zrange", "k", "0", "-1"]
      = ((handle_zadd [] (fun s => if s = "1" then qOne else if s = "2" then qTwo
          else qThreeHalves) ["zadd", "k", "1", "a", "2", "b", "1.5", "c"]).1,
         some ("*" ++ toString (((2 : Int) - 0 + 1)).toNat ++ "\r\n" ++
           String.join ((((((ZTree.inorder (zaddFold ZTree.nil 0 (zaddPairs
             (fun s => if s = "1" then qOne else if s = "2" then qTwo else qThreeHalves)
             ["1", "a", "2", "b", "1.5", "c"])).2)).map Prod.snd).drop ((0 : Int)).toNat).take
             (((2 : Int) - 0 + 1)).toNat).map encode_bulk_str))) ∧
    ("*" ++ toString (((2 : Int) - 0 + 1)).toNat ++ "\r\n" ++
       String.join ((((((ZTree.inorder (zaddFold ZTree.nil 0 (zaddPairs
         (fun s => if s = "1" then qOne else if s = "2" then qTwo else qThreeHalves)
         ["1", "a", "2", "b", "1.5", "c"])).2)).map Prod.snd).drop ((0 : Int)).toNat).take
         (((2 : Int) - 0 + 1)).toNat).map encode_bulk_str))
      = "*3\r\n$1\r\na\r\n$1\r\nc\r\n$1\r\nb\r\n" :=
  ⟨rfl,
   (C7_zrange_rank_order
      (handle_zadd [] (fun s => if s = "1" then qOne else if s = "2" then qTwo
        else qThreeHalves) ["zadd", "k", "1", "a", "2", "b", "1.5", "c"]).1
      (fun s => if s = "-1" then (-1 : Int) else 0) "k" "0" "-1"
      (zaddFold ZTree.nil 0 (zaddPairs (fun s => if s = "1" then qOne else if s = "2" then qTwo
        else qThreeHalves) ["1", "a", "2", "b", "1.5", "c"])).2 (-1)
      3 0 2 0 2 rfl ⟨by decide, by decide, by decide⟩ (by decide) (by decide) (by decide)
      (by decide) (by decide)).2.2.2 (by decide),
   by decide⟩

end Redis
